import Mathlib

/-
Verification of the text-buffer and command-history core of the
code-editor engine (src/language/Extensions.ts, src/core/CommandSystem.ts).

Strings are modelled as lists of characters (`Str`).  Positions supplied by
callers carry `Int` coordinates, since the TypeScript code accepts negative
or oversized coordinates and clamps them; validated positions carry `Nat`
coordinates.  Each stateful method of `LineBuffer` becomes a pure function
from the buffer value to a (buffer, result) pair; the mutable command and
history objects become explicit records threaded through the operations.
The `end` field of a TypeScript `Range` is called `stop` here because `end`
is a reserved word in Lean.
-/

set_option maxRecDepth 4000

namespace CodeEditor

abbrev Str := List Char

/-- JS `s.substring(a, b)`: clamps both indices to the string and swaps them
if given out of order.  Callers in this model always pass natural numbers,
so only the clamp-to-length and swap behaviour matters. -/
def jsSubstring (s : Str) (a b : Nat) : Str := (s.take (max a b)).drop (min a b)

/-- JS `s.substring(a)` (to the end of the string). -/
def substringFrom (s : Str) (a : Nat) : Str := s.drop a

/-- JS `s.includes(pat)`: substring containment test. -/
def strIncludes (s pat : Str) : Bool :=
  (List.range (s.length + 1)).any (fun i => pat.isPrefixOf (s.drop i))

/-- JS `content.split(/\r\n|\r|\n/)`: split on any line terminator, with
`\r\n` taking precedence over a lone `\r`.  Always returns a non-empty
list; the empty string yields `[""]`. -/
def splitLines : Str → List Str
  | [] => [[]]
  | '\r' :: '\n' :: rest => [] :: splitLines rest
  | '\r' :: rest =>
    match splitLines rest with
    | [] => [[]]
    | ls => [] :: ls
  | '\n' :: rest => [] :: splitLines rest
  | c :: rest =>
    match splitLines rest with
    | [] => [[c]]
    | l :: ls => (c :: l) :: ls

/-- JS `array.join(sep)` for the line array. -/
def joinWith (sep : Str) (ls : List Str) : Str := List.intercalate sep ls

/-- A caller-supplied position: `{line, column}`, possibly negative or
out of bounds (TypeScript `Position`). -/
structure Pos where
  line : Int
  column : Int
deriving Repr, DecidableEq

/-- A validated (clamped) position: in-bounds natural coordinates. -/
structure NPos where
  line : Nat
  column : Nat
deriving Repr, DecidableEq

def NPos.toPos (p : NPos) : Pos := ⟨p.line, p.column⟩

/-- A caller-supplied range (`{start, end}` in TypeScript; `end` is renamed
to `stop`). -/
structure Range where
  start : Pos
  stop : Pos
deriving Repr, DecidableEq

/-- A validated range: both endpoints clamped and ordered. -/
structure NRange where
  start : NPos
  stop : NPos
deriving Repr, DecidableEq

def NRange.toRange (r : NRange) : Range := ⟨r.start.toPos, r.stop.toPos⟩

/-- The `LineBuffer` state: the line array, the mutation counter and the
detected line-ending string. -/
structure LineBuffer where
  lines : List Str
  version : Nat
  lineEndings : Str
deriving Repr, DecidableEq

namespace LineBuffer

/-- `this.lines[i]` for an index that the code has already clamped
in bounds (out-of-bounds access is never reached on these paths). -/
def lineAt (buf : LineBuffer) (i : Nat) : Str := buf.lines.getD i []

def lineCount (buf : LineBuffer) : Nat := buf.lines.length

/-- `getText()`: join all lines with the stored line ending. -/
def getText (buf : LineBuffer) : Str := joinWith buf.lineEndings buf.lines

/-- Line-ending detection in `setText`: prefer `\r\n`, then `\r`, else `\n`. -/
def detectLineEnding (content : Str) : Str :=
  if strIncludes content ['\r', '\n'] then ['\r', '\n']
  else if strIncludes content ['\r'] then ['\r']
  else ['\n']

/-- `setText(content)`: re-detect the line ending, split the content into
lines (replacing an empty split result by a single empty line) and bump the
version. -/
def setText (buf : LineBuffer) (content : Str) : LineBuffer :=
  let ls := splitLines content
  { buf with
    lineEndings := detectLineEnding content
    lines := if ls = [] then [[]] else ls
    version := buf.version + 1 }

/-- The constructor `new LineBuffer(content, lineEnding)`: fields start as
`([''], 0, lineEnding)` and then `setText(content)` runs. -/
def mkNew (content : Str) (lineEnding : Str) : LineBuffer :=
  setText { lines := [[]], version := 0, lineEndings := lineEnding } content

/-- `validatePosition(position)`: clamp the line into `[0, lineCount-1]`
and the column into `[0, length of that line]`.  `Int.toNat` is JS
`Math.max(0, ·)` on the clamped value. -/
def validatePosition (buf : LineBuffer) (p : Pos) : NPos :=
  let line : Nat := (min p.line ((buf.lines.length : Int) - 1)).toNat
  let maxColumn := (buf.lineAt line).length
  let column : Nat := (min p.column (maxColumn : Int)).toNat
  ⟨line, column⟩

/-- `validateRange(range)`: validate both endpoints, then swap them if the
start is lexicographically after the end. -/
def validateRange (buf : LineBuffer) (r : Range) : NRange :=
  let s := buf.validatePosition r.start
  let e := buf.validatePosition r.stop
  if s.line > e.line ∨ (s.line = e.line ∧ s.column > e.column) then ⟨e, s⟩
  else ⟨s, e⟩

/-- `getTextRange(range)`: substring within one line, or tail of the first
line + interior lines + head of the last line, joined with the line ending. -/
def getTextRange (buf : LineBuffer) (r : Range) : Str :=
  let v := buf.validateRange r
  if v.start.line = v.stop.line then
    jsSubstring (buf.lineAt v.start.line) v.start.column v.stop.column
  else
    let first := substringFrom (buf.lineAt v.start.line) v.start.column
    let middle := (buf.lines.drop (v.start.line + 1)).take (v.stop.line - (v.start.line + 1))
    let last := jsSubstring (buf.lineAt v.stop.line) 0 v.stop.column
    joinWith buf.lineEndings (first :: (middle ++ [last]))

/-- `getLineLength(line)`: content length plus the line-ending length,
except for the final line. -/
def getLineLength (buf : LineBuffer) (line : Nat) : Nat :=
  (buf.lineAt line).length +
    (if line = buf.lines.length - 1 then 0 else buf.lineEndings.length)

/-- JS `array.splice(i, 0, ...news)`. -/
def spliceInsert (xs : List α) (i : Nat) (news : List α) : List α :=
  xs.take i ++ news ++ xs.drop i

/-- JS `array.splice(i, cnt)` (removal). -/
def spliceRemove (xs : List α) (i cnt : Nat) : List α :=
  xs.take i ++ xs.drop (i + cnt)

/-- `insertText(position, text)`: validate the position, split the text on
line terminators; single-segment inserts splice into the target line,
multi-segment inserts split the target line and splice in the new lines.
Returns the new buffer and the range covering the inserted text. -/
def insertText (buf : LineBuffer) (position : Pos) (text : Str) :
    LineBuffer × NRange :=
  let v := buf.validatePosition position
  let insertLines := splitLines text
  if insertLines.length = 1 then
    let line := buf.lineAt v.line
    let newLine := jsSubstring line 0 v.column ++ text ++ substringFrom line v.column
    ({ buf with lines := buf.lines.set v.line newLine, version := buf.version + 1 },
     ⟨v, ⟨v.line, v.column + text.length⟩⟩)
  else
    let line := buf.lineAt v.line
    let before := jsSubstring line 0 v.column
    let after := substringFrom line v.column
    let l1 := buf.lines.set v.line (before ++ insertLines.headD [])
    let middleLines := (insertLines.take (insertLines.length - 1)).drop 1
    let l2 := spliceInsert l1 (v.line + 1) middleLines
    let lastInsertLine := insertLines.getLastD []
    let l3 := spliceInsert l2 (v.line + insertLines.length - 1) [lastInsertLine ++ after]
    ({ buf with lines := l3, version := buf.version + 1 },
     ⟨v, ⟨v.line + insertLines.length - 1,
          lastInsertLine.length + (if insertLines.length = 1 then v.column else 0)⟩⟩)

/-- `deleteText(range)`: validate, capture the removed text via
`getTextRange`, then splice within one line or merge the outer lines and
excise the interior.  Returns the new buffer and the deleted text. -/
def deleteText (buf : LineBuffer) (r : Range) : LineBuffer × Str :=
  let v := buf.validateRange r
  let deleted := buf.getTextRange v.toRange
  if v.start.line = v.stop.line then
    let line := buf.lineAt v.start.line
    let newLine := jsSubstring line 0 v.start.column ++ substringFrom line v.stop.column
    ({ buf with lines := buf.lines.set v.start.line newLine, version := buf.version + 1 },
     deleted)
  else
    let startLine := buf.lineAt v.start.line
    let endLine := buf.lineAt v.stop.line
    let merged := jsSubstring startLine 0 v.start.column ++ substringFrom endLine v.stop.column
    let l1 := buf.lines.set v.start.line merged
    let l2 := spliceRemove l1 (v.start.line + 1) (v.stop.line - v.start.line)
    ({ buf with lines := l2, version := buf.version + 1 }, deleted)

/-- `replaceText(range, text)` = `deleteText(range)` then
`insertText(range.start, text)` — note the insert clamps the raw
`range.start` against the post-delete buffer. -/
def replaceText (buf : LineBuffer) (r : Range) (text : Str) :
    LineBuffer × NRange :=
  ((buf.deleteText r).1).insertText r.start text

/-- `offsetToPosition` loop body: walk the remaining lines, subtracting each
line's length (content plus separator, except on the final line) from the
offset; fall back to the end of the last line. -/
def o2pGo (sepLen : Nat) : List Str → Nat → Nat → NPos
  | [], idx, _ => ⟨idx, 0⟩
  | [l], idx, offset =>
    if offset < l.length then ⟨idx, offset⟩ else ⟨idx, l.length⟩
  | l :: l' :: ls, idx, offset =>
    let lineLength := l.length + sepLen
    if offset < lineLength then ⟨idx, offset⟩
    else o2pGo sepLen (l' :: ls) (idx + 1) (offset - lineLength)

/-- `offsetToPosition(offset)`. -/
def offsetToPosition (buf : LineBuffer) (offset : Nat) : NPos :=
  o2pGo buf.lineEndings.length buf.lines 0 offset

/-- `positionToOffset(position)`: validate, then sum the lengths of the
preceding lines and add the column. -/
def positionToOffset (buf : LineBuffer) (position : Pos) : Nat :=
  let v := buf.validatePosition position
  ((List.range v.line).map buf.getLineLength).sum + v.column

end LineBuffer

/-- JS `\w` (with no unicode flag): ASCII letters, digits and underscore. -/
def isWordChar (c : Char) : Bool := c.isAlphanum || c == '_'

/-- The successive matches of `/\w+/g` on a line starting at index `i`:
the maximal runs of word characters, as (start, end) index pairs. -/
def wordRunsFrom : List Char → Nat → List (Nat × Nat)
  | [], _ => []
  | c :: rest, i =>
    let rs := wordRunsFrom rest (i + 1)
    if isWordChar c then
      match rs with
      | (s, e) :: rs' => if s = i + 1 then (i, e) :: rs' else (i, i + 1) :: rs
      | [] => [(i, i + 1)]
    else rs

/-- All matches of the default word pattern `/\w+/g` on a line. -/
def wordRuns (l : List Char) : List (Nat × Nat) := wordRunsFrom l 0

namespace LineBuffer

/-- `getWordRangeAtPosition(position)` with the default `/\w+/g` pattern:
bail out for a missing/empty line or a column at or past the end of the
line, otherwise return the first match whose span contains the column
(inclusive on both ends). -/
def getWordRangeAtPosition (buf : LineBuffer) (position : Pos) : Option NRange :=
  let v := buf.validatePosition position
  let line := buf.lineAt v.line
  if line = [] ∨ v.column ≥ line.length then none
  else
    match (wordRuns line).find? (fun se => se.1 ≤ v.column && v.column ≤ se.2) with
    | some (s, e) => some ⟨⟨v.line, s⟩, ⟨v.line, e⟩⟩
    | none => none

end LineBuffer

/-- Search options of `findNext`/`findAll`, all defaulting to false. -/
structure FindOptions where
  caseSensitive : Bool := false
  wholeWord : Bool := false
  regex : Bool := false
deriving Repr, DecidableEq

/-- Character comparison under the `i` regex flag. -/
def charsMatch (caseSensitive : Bool) (a b : Char) : Bool :=
  if caseSensitive then a == b else a.toLower == b.toLower

/-- Does the (escaped, literal) needle match the haystack at index `i`
under the given case flag? -/
def matchesAt (caseSensitive : Bool) (needle hay : Str) (i : Nat) : Bool :=
  decide (i + needle.length ≤ hay.length) &&
    (needle.zip (hay.drop i)).all (fun ab => charsMatch caseSensitive ab.1 ab.2)

/-- Is the character at index `i` (if any) a word character? -/
def wordAtIdx (hay : Str) (i : Nat) : Bool :=
  match hay.drop i with
  | [] => false
  | c :: _ => isWordChar c

/-- A `\b` word boundary at index `i` of the haystack. -/
def boundaryAt (hay : Str) (i : Nat) : Bool :=
  (if i = 0 then false else wordAtIdx hay (i - 1)) != wordAtIdx hay i

/-- `exec` of the pattern the non-regex path of `findNext` builds (the
search text escaped, optionally wrapped in `\b...\b`), starting the scan at
`lastIndex`: the first index at or after `lastIndex` where the literal
matches (and, for whole-word search, both ends sit on word boundaries),
together with the match length. -/
def execLiteral (caseSensitive wholeWord : Bool) (needle : Str) (hay : Str)
    (lastIndex : Nat) : Option (Nat × Nat) :=
  ((List.range (hay.length + 1)).find? (fun i =>
      decide (lastIndex ≤ i) && matchesAt caseSensitive needle hay i &&
        (!wholeWord ||
          (boundaryAt hay i && boundaryAt hay (i + needle.length))))).map
    (fun i => (i, needle.length))

/-- The result of compiling a user-supplied pattern with `new RegExp`: a
function from (haystack, lastIndex) to the first match position and length
at or after lastIndex. -/
abbrev Matcher := Str → Nat → Option (Nat × Nat)

/-- The host regex engine for the `regex: true` path of `findNext`,
abstracted: `new RegExp(searchText, flags)` either throws (`none`) for an
invalid pattern or yields a matcher.  The second argument is the
`caseSensitive` flag. -/
abbrev RegexEngine := Str → Bool → Option Matcher

/-- The `try { pattern = new RegExp(...) } catch { return null }` prologue
of `findNext`: the regex path consults the engine and may fail; the literal
path escapes the text (always a valid pattern) and never fails. -/
def buildPattern (engine : RegexEngine) (searchText : Str) (opts : FindOptions) :
    Option Matcher :=
  if opts.regex then engine searchText opts.caseSensitive
  else some (execLiteral opts.caseSensitive opts.wholeWord searchText)

namespace LineBuffer

/-- `findNext(searchText, startPosition, options)`: build the pattern
(returning null on an invalid regex), convert the start position to an
offset and search the joined text from there. -/
def findNext (engine : RegexEngine) (buf : LineBuffer) (searchText : Str)
    (startPosition : Pos) (opts : FindOptions) : Option NRange :=
  match buildPattern engine searchText opts with
  | none => none
  | some matcher =>
    let startOffset := buf.positionToOffset startPosition
    let text := buf.getText
    match matcher text startOffset with
    | some il => some ⟨buf.offsetToPosition il.1, buf.offsetToPosition (il.1 + il.2)⟩
    | none => none

/-- The `while (true)` loop of `findAll`, with explicit fuel: `none` means
the fuel ran out before the loop reached its `break` (the loop in the
source has no other exit). -/
def findAllGo (engine : RegexEngine) (buf : LineBuffer) (searchText : Str)
    (opts : FindOptions) : Nat → Pos → List NRange → Option (List NRange)
  | 0, _, _ => none
  | fuel + 1, pos, acc =>
    match buf.findNext engine searchText pos opts with
    | none => some acc.reverse
    | some range => findAllGo engine buf searchText opts fuel range.stop.toPos (range :: acc)

/-- `findAll(searchText, options)`: repeatedly `findNext` from the previous
match's end, starting at `{line: 0, column: 0}`. -/
def findAll (engine : RegexEngine) (buf : LineBuffer) (searchText : Str)
    (opts : FindOptions) (fuel : Nat) : Option (List NRange) :=
  findAllGo engine buf searchText opts fuel ⟨0, 0⟩ []

end LineBuffer

/-- The mutable state of a `TextEditCommand`: the constructor arguments
(`range`, `newText`) plus the fields written during execution
(`previousText`, `actualRange`) and the `executed`/`undone` flags of
`UndoableCommand`. -/
structure TextEditCommand where
  range : Range
  newText : Str
  previousText : Str := []
  actualRange : Range
  executed : Bool := false
  undone : Bool := false
deriving Repr, DecidableEq

/-- A freshly constructed `TextEditCommand` (constructor sets
`actualRange = range`). -/
def mkCommand (rt : Range × Str) : TextEditCommand :=
  { range := rt.1, newText := rt.2, actualRange := rt.1 }

/-- `TextEditCommand.execute()`: capture the text the edit will overwrite,
perform the replacement, record the resulting range and mark executed. -/
def cmdExecute (buf : LineBuffer) (c : TextEditCommand) :
    LineBuffer × TextEditCommand :=
  let previousText := buf.getTextRange c.range
  let res := buf.replaceText c.range c.newText
  (res.1,
   { c with previousText := previousText, actualRange := res.2.toRange,
            executed := true, undone := false })

/-- `TextEditCommand.undo()`: a no-op unless executed; otherwise restore
the previous text over the actual range and mark undone. -/
def cmdUndo (buf : LineBuffer) (c : TextEditCommand) :
    LineBuffer × TextEditCommand :=
  if c.executed then
    let res := buf.replaceText c.actualRange c.previousText
    (res.1, { c with executed := false, undone := true })
  else (buf, c)

/-- `UndoableCommand.redo()`: a no-op unless undone; otherwise flip the
flags and re-run `execute()`. -/
def cmdRedo (buf : LineBuffer) (c : TextEditCommand) :
    LineBuffer × TextEditCommand :=
  if c.undone then cmdExecute buf { c with undone := false, executed := true }
  else (buf, c)

/-- The `CommandHistory` stacks.  Lists are in JS array order: index 0 is
the oldest entry, the last element is the top of the stack. -/
structure CommandHistory where
  undoStack : List TextEditCommand := []
  redoStack : List TextEditCommand := []
  maxStackSize : Nat := 1000
deriving Repr, DecidableEq

def CommandHistory.canUndo (h : CommandHistory) : Bool :=
  decide (0 < h.undoStack.length)

def CommandHistory.canRedo (h : CommandHistory) : Bool :=
  decide (0 < h.redoStack.length)

/-- A buffer together with its command history (the document the commands
are bound to). -/
structure EditorState where
  buf : LineBuffer
  hist : CommandHistory
deriving Repr, DecidableEq

/-- `CommandHistory.execute(command)`: run the command, push it onto the
undo stack, clear the redo stack, and drop the oldest undo entry if the
stack exceeds `maxStackSize`. -/
def histExecute (s : EditorState) (c : TextEditCommand) : EditorState :=
  let res := cmdExecute s.buf c
  let pushed := s.hist.undoStack ++ [res.2]
  let trimmed := if s.hist.maxStackSize < pushed.length then pushed.drop 1 else pushed
  ⟨res.1, { s.hist with undoStack := trimmed, redoStack := [] }⟩

/-- `CommandHistory.undo()`: pop the newest undo entry, run its `undo()`,
push it onto the redo stack.  No-op (returns false) on an empty stack. -/
def histUndo (s : EditorState) : EditorState × Bool :=
  match s.hist.undoStack.getLast? with
  | none => (s, false)
  | some c =>
    let res := cmdUndo s.buf c
    (⟨res.1, { s.hist with undoStack := s.hist.undoStack.dropLast,
                           redoStack := s.hist.redoStack ++ [res.2] }⟩, true)

/-- `CommandHistory.redo()`: pop the newest redo entry, run its `redo()`,
push it onto the undo stack.  No-op (returns false) on an empty stack. -/
def histRedo (s : EditorState) : EditorState × Bool :=
  match s.hist.redoStack.getLast? with
  | none => (s, false)
  | some c =>
    let res := cmdRedo s.buf c
    (⟨res.1, { s.hist with redoStack := s.hist.redoStack.dropLast,
                           undoStack := s.hist.undoStack ++ [res.2] }⟩, true)

/-- Execute a list of freshly constructed text-edit commands in order. -/
def execAll (s : EditorState) (inputs : List (Range × Str)) : EditorState :=
  inputs.foldl (fun s rt => histExecute s (mkCommand rt)) s

/-- Call `undo()` n times. -/
def undoN : Nat → EditorState → EditorState
  | 0, s => s
  | n + 1, s => undoN n (histUndo s).1

/-- Call `redo()` n times. -/
def redoN : Nat → EditorState → EditorState
  | 0, s => s
  | n + 1, s => redoN n (histRedo s).1

/-- The buffer after executing a list of fresh text-edit commands,
ignoring the history bookkeeping. -/
def execBufAll (buf : LineBuffer) : List (Range × Str) → LineBuffer
  | [] => buf
  | rt :: rest => execBufAll (cmdExecute buf (mkCommand rt)).1 rest

/-- The executed command records produced by executing a list of fresh
text-edit commands in order. -/
def execRecs (buf : LineBuffer) : List (Range × Str) → List TextEditCommand
  | [] => []
  | rt :: rest =>
    (cmdExecute buf (mkCommand rt)).2 :: execRecs (cmdExecute buf (mkCommand rt)).1 rest

/-- `markUndone` effect of `undo()` on a command record. -/
def markUndone (c : TextEditCommand) : TextEditCommand :=
  { c with executed := false, undone := true }

/-- The redo-stack contents after undoing every command of the list: the
records in reverse execution order, each marked undone. -/
def undoneRecs (buf : LineBuffer) (inputs : List (Range × Str)) : List TextEditCommand :=
  (execRecs buf inputs).reverse.map markUndone

/-- A validated position is in bounds for a line array. -/
def inBounds (L : List Str) (p : NPos) : Prop :=
  p.line < L.length ∧ p.column ≤ (L.getD p.line []).length

/-- Lexicographic order on validated positions. -/
def nposLe (a b : NPos) : Prop :=
  a.line < b.line ∨ (a.line = b.line ∧ a.column ≤ b.column)

/-- A validated range that is in bounds and ordered. -/
def rangeInBounds (L : List Str) (r : NRange) : Prop :=
  inBounds L r.start ∧ inBounds L r.stop ∧ nposLe r.start r.stop

/-- A caller-supplied position that is exactly in bounds for the buffer
(validation would return it unchanged). -/
def posExactIn (buf : LineBuffer) (p : Pos) : Bool :=
  decide (0 ≤ p.line) && decide (p.line < (buf.lines.length : Int)) &&
    decide (0 ≤ p.column) &&
    decide (p.column ≤ ((buf.lineAt p.line.toNat).length : Int))

/-- Lexicographic comparison of caller-supplied positions. -/
def posLeB (a b : Pos) : Bool :=
  decide (a.line < b.line) || (decide (a.line = b.line) && decide (a.column ≤ b.column))

/-- A caller-supplied range that is exactly in bounds and ordered for the
buffer (validation neither clamps nor swaps it). -/
def rangeExactIn (buf : LineBuffer) (r : Range) : Bool :=
  posExactIn buf r.start && posExactIn buf r.stop && posLeB r.start r.stop

/-- Every command of the sequence has an exactly-in-bounds, ordered range
with respect to the buffer state at its own execution point. -/
def cleanSeqB (buf : LineBuffer) : List (Range × Str) → Bool
  | [] => true
  | (r, t) :: rest => rangeExactIn buf r && cleanSeqB (buf.replaceText r t).1 rest

/-- A line free of line-terminator characters. -/
def EolFreeStr (s : Str) : Prop := ∀ c ∈ s, ¬(c = '\r' ∨ c = '\n')

/-- Well-formedness of a `LineBuffer`, maintained by the constructor and
every mutation: at least one line, no terminator characters inside lines,
and a line-ending string of one of the three detected forms. -/
def WF (buf : LineBuffer) : Prop :=
  buf.lines ≠ [] ∧ (∀ l ∈ buf.lines, EolFreeStr l) ∧
    (buf.lineEndings = ['\r', '\n'] ∨ buf.lineEndings = ['\r'] ∨
      buf.lineEndings = ['\n'])

/-
Theorems.  First, basic facts about `validatePosition`.
-/

lemma validatePosition_line_def (buf : LineBuffer) (p : Pos) :
    (buf.validatePosition p).line = (min p.line ((buf.lines.length : Int) - 1)).toNat := rfl

lemma validatePosition_column_def (buf : LineBuffer) (p : Pos) :
    (buf.validatePosition p).column =
      (min p.column (((buf.lineAt (buf.validatePosition p).line).length : Int))).toNat := rfl

lemma validatePosition_line_lt (buf : LineBuffer) (h : buf.lines ≠ []) (p : Pos) :
    (buf.validatePosition p).line < buf.lines.length := by
  have hlen : 0 < buf.lines.length := List.length_pos.mpr h
  rw [validatePosition_line_def]
  have h2 := min_le_right p.line ((buf.lines.length : Int) - 1)
  omega

lemma validatePosition_column_le (buf : LineBuffer) (p : Pos) :
    (buf.validatePosition p).column ≤ (buf.lineAt (buf.validatePosition p).line).length := by
  rw [validatePosition_column_def]
  have h2 := min_le_right p.column (((buf.lineAt (buf.validatePosition p).line).length : Int))
  omega

/-- C7.  Totality of position clamping: `validatePosition` is total (it is a
function into validated positions), the returned line is
`max 0 (min line (lineCount-1))` — hence within `[0, lineCount-1]` — and the
returned column is `max 0 (min column (length of the clamped line))` — hence
within `[0, length of that line]`. -/
theorem validatePosition_total_clamps (buf : LineBuffer) (h : buf.lines ≠ []) (p : Pos) :
    ((buf.validatePosition p).line : Int) =
      max 0 (min p.line ((buf.lines.length : Int) - 1)) ∧
    (buf.validatePosition p).line < buf.lines.length ∧
    ((buf.validatePosition p).column : Int) =
      max 0 (min p.column (((buf.lineAt (buf.validatePosition p).line).length : Int))) ∧
    (buf.validatePosition p).column ≤ (buf.lineAt (buf.validatePosition p).line).length := by
  refine ⟨?_, validatePosition_line_lt buf h p, ?_, validatePosition_column_le buf p⟩
  · rw [validatePosition_line_def, Int.toNat_eq_max, max_comm]
  · rw [validatePosition_column_def, Int.toNat_eq_max, max_comm]

/-- Witness for C7 on the 3-line buffer of the specification's example:
`validatePosition({line: -5, column: 9999})` returns `{0, length of line 0}`. -/
theorem validatePosition_total_clamps_witness :
    ((LineBuffer.mkNew "ab\ncd\nef".data ['\n']).lines ≠ []) ∧
    (LineBuffer.mkNew "ab\ncd\nef".data ['\n']).validatePosition ⟨-5, 9999⟩ = ⟨0, 2⟩ ∧
    ((LineBuffer.mkNew "ab\ncd\nef".data ['\n']).validatePosition ⟨-5, 9999⟩).line <
      (LineBuffer.mkNew "ab\ncd\nef".data ['\n']).lines.length :=
  ⟨by decide, by decide,
    (validatePosition_total_clamps (LineBuffer.mkNew "ab\ncd\nef".data ['\n'])
      (by decide) ⟨-5, 9999⟩).2.1⟩

/-- C10.  The constructor's `lineEnding` argument is inert: the constructed
buffer is independent of it, and its line-ending style is re-detected from
the content with the `\r\n`, `\r`, `\n` priority. -/
theorem constructor_lineEnding_inert (content e1 e2 : Str) :
    LineBuffer.mkNew content e1 = LineBuffer.mkNew content e2 ∧
    (LineBuffer.mkNew content e1).lineEndings =
      (if strIncludes content ['\r', '\n'] then ['\r', '\n']
       else if strIncludes content ['\r'] then ['\r'] else ['\n']) :=
  ⟨rfl, rfl⟩

/-- C5.  History linearity: immediately after any `execute`, the redo stack
is empty and `canRedo()` is false, whatever the prior state. -/
theorem execute_clears_redoStack (s : EditorState) (c : TextEditCommand) :
    (histExecute s c).hist.redoStack = [] ∧ (histExecute s c).hist.canRedo = false :=
  ⟨rfl, rfl⟩

lemma execRecs_length (buf : LineBuffer) (inputs : List (Range × Str)) :
    (execRecs buf inputs).length = inputs.length := by
  induction inputs generalizing buf with
  | nil => rfl
  | cons rt rest ih => simp [execRecs, ih]

lemma histExecute_eq (buf : LineBuffer) (us rs : List TextEditCommand) (M : Nat)
    (c : TextEditCommand) (h : us.length ≤ M) :
    histExecute ⟨buf, ⟨us, rs, M⟩⟩ c =
      ⟨(cmdExecute buf c).1,
       ⟨(us ++ [(cmdExecute buf c).2]).drop (us.length + 1 - M), [], M⟩⟩ := by
  show (⟨(cmdExecute buf c).1,
        ⟨(if M < (us ++ [(cmdExecute buf c).2]).length
          then (us ++ [(cmdExecute buf c).2]).drop 1 else us ++ [(cmdExecute buf c).2]),
         [], M⟩⟩ : EditorState) = _
  have hlen : (us ++ [(cmdExecute buf c).2]).length = us.length + 1 := by simp
  by_cases hc : M < (us ++ [(cmdExecute buf c).2]).length
  · rw [if_pos hc]
    have h1 : us.length + 1 - M = 1 := by rw [hlen] at hc; omega
    rw [h1]
  · rw [if_neg hc]
    have h1 : us.length + 1 - M = 0 := by rw [hlen] at hc; omega
    rw [h1, List.drop_zero]

lemma execAll_spec (inputs : List (Range × Str)) :
    ∀ (buf : LineBuffer) (us rs : List TextEditCommand) (M : Nat),
      us.length ≤ M →
      execAll ⟨buf, ⟨us, rs, M⟩⟩ inputs =
        ⟨execBufAll buf inputs,
         ⟨(us ++ execRecs buf inputs).drop (us.length + inputs.length - M),
          if inputs = [] then rs else [], M⟩⟩ := by
  induction inputs with
  | nil =>
    intro buf us rs M h
    simp [execAll, execBufAll, execRecs, Nat.sub_eq_zero_of_le h]
  | cons rt rest ih =>
    intro buf us rs M h
    have hstep : execAll ⟨buf, ⟨us, rs, M⟩⟩ (rt :: rest) =
        execAll (histExecute ⟨buf, ⟨us, rs, M⟩⟩ (mkCommand rt)) rest := rfl
    rw [hstep, histExecute_eq buf us rs M (mkCommand rt) h]
    have hlen2 : ((us ++ [(cmdExecute buf (mkCommand rt)).2]).drop (us.length + 1 - M)).length ≤ M := by
      simp only [List.length_drop, List.length_append, List.length_cons, List.length_nil]
      omega
    rw [ih _ _ _ _ hlen2]
    have hbuf : execBufAll (cmdExecute buf (mkCommand rt)).1 rest = execBufAll buf (rt :: rest) := rfl
    have hrecs : execRecs buf (rt :: rest) =
        (cmdExecute buf (mkCommand rt)).2 :: execRecs (cmdExecute buf (mkCommand rt)).1 rest := rfl
    have hd1 : us.length + 1 - M ≤ (us ++ [(cmdExecute buf (mkCommand rt)).2]).length := by
      simp only [List.length_append, List.length_cons, List.length_nil]
      omega
    have hU : ((us ++ [(cmdExecute buf (mkCommand rt)).2]).drop (us.length + 1 - M) ++
          execRecs (cmdExecute buf (mkCommand rt)).1 rest).drop
          (((us ++ [(cmdExecute buf (mkCommand rt)).2]).drop (us.length + 1 - M)).length +
            rest.length - M) =
        (us ++ execRecs buf (rt :: rest)).drop (us.length + (rt :: rest).length - M) := by
      rw [hrecs, ← List.drop_append_of_le_length hd1, List.drop_drop]
      have hXY : (us ++ [(cmdExecute buf (mkCommand rt)).2]) ++
          execRecs (cmdExecute buf (mkCommand rt)).1 rest =
          us ++ (cmdExecute buf (mkCommand rt)).2 ::
            execRecs (cmdExecute buf (mkCommand rt)).1 rest := by
        simp
      rw [hXY]
      congr 1
      simp only [List.length_drop, List.length_append, List.length_cons, List.length_nil]
      omega
    rw [hbuf, hU]
    simp


/-- C6.  Stack bound with oldest-first eviction: executing `M + k` commands
on a fresh history with maximum stack size `M` leaves exactly the records
of the `M` most recent commands on the undo stack, in execution order (the
`k` oldest were evicted). -/
theorem stack_bound_oldest_first (buf : LineBuffer) (M k : Nat)
    (inputs : List (Range × Str)) (hlen : inputs.length = M + k) :
    (execAll ⟨buf, ⟨[], [], M⟩⟩ inputs).hist.undoStack = (execRecs buf inputs).drop k ∧
    ((execAll ⟨buf, ⟨[], [], M⟩⟩ inputs).hist.undoStack).length = M := by
  rw [execAll_spec inputs buf [] [] M (Nat.zero_le M)]
  have hidx : List.length ([] : List TextEditCommand) + inputs.length - M = k := by
    simp [hlen]
  constructor
  · simp only [hidx, List.nil_append]
  · simp only [hidx, List.nil_append, List.length_drop, execRecs_length, hlen]
    omega

/-- Witness for C6 with `maxStackSize = 2` and three executed commands: the
undo stack retains the records of the two most recent commands. -/
theorem stack_bound_oldest_first_witness :
    (([(⟨⟨0, 0⟩, ⟨0, 0⟩⟩, "P".data), (⟨⟨0, 1⟩, ⟨0, 1⟩⟩, "Q".data),
       (⟨⟨0, 2⟩, ⟨0, 2⟩⟩, "R".data)] : List (Range × Str)).length = 2 + 1) ∧
    ((execAll ⟨LineBuffer.mkNew "abc".data ['\n'], ⟨[], [], 2⟩⟩
        [(⟨⟨0, 0⟩, ⟨0, 0⟩⟩, "P".data), (⟨⟨0, 1⟩, ⟨0, 1⟩⟩, "Q".data),
         (⟨⟨0, 2⟩, ⟨0, 2⟩⟩, "R".data)]).hist.undoStack).length = 2 :=
  ⟨by decide,
    (stack_bound_oldest_first (LineBuffer.mkNew "abc".data ['\n']) 2 1
      [(⟨⟨0, 0⟩, ⟨0, 0⟩⟩, "P".data), (⟨⟨0, 1⟩, ⟨0, 1⟩⟩, "Q".data),
       (⟨⟨0, 2⟩, ⟨0, 2⟩⟩, "R".data)] (by decide)).2⟩

lemma findAllGo_empty_none (fuel : Nat) :
    ∀ acc : List NRange,
      LineBuffer.findAllGo (fun _ _ => none) (LineBuffer.mkNew "abc".data ['\n'])
        [] {} fuel ⟨0, 0⟩ acc = none := by
  induction fuel with
  | zero => intro acc; rfl
  | succ n ih =>
    intro acc
    have hstep : (LineBuffer.mkNew "abc".data ['\n']).findNext (fun _ _ => none)
        [] ⟨0, 0⟩ {} = some ⟨⟨0, 0⟩, ⟨0, 0⟩⟩ := by decide
    have hpos : ((⟨⟨0, 0⟩, ⟨0, 0⟩⟩ : NRange).stop).toPos = (⟨0, 0⟩ : Pos) := by
      simp [NPos.toPos]
    simp only [LineBuffer.findAllGo, hstep, hpos]
    exact ih _

/-- C2 fails on the code: with the empty search text (whose escaped literal
pattern matches the empty string), `findNext` keeps returning the empty
range at the search position, the position never advances, and the
`while (true)` loop of `findAll` never reaches its `break` — for every
amount of fuel the loop is still running.  The code has no special case
for zero-length matches. -/
theorem findAll_empty_search_never_returns (fuel : Nat) :
    (LineBuffer.mkNew "abc".data ['\n']).findAll (fun _ _ => none) [] {} fuel = none :=
  findAllGo_empty_none fuel []

/-- C9.  Invalid-regex lenience: with `regex: true` and a pattern the host
regex engine rejects (`new RegExp` throws), `findNext` returns null and
`findAll` returns the empty list, with no error escaping; the operations
read the buffer only, so its lines and version are untouched. -/
theorem invalid_regex_no_match (engine : RegexEngine) (buf : LineBuffer)
    (searchText : Str) (startPosition : Pos) (opts : FindOptions) (fuel : Nat)
    (hre : opts.regex = true) (hbad : engine searchText opts.caseSensitive = none)
    (hfuel : 1 ≤ fuel) :
    buf.findNext engine searchText startPosition opts = none ∧
    buf.findAll engine searchText opts fuel = some [] := by
  have hbp : buildPattern engine searchText opts = none := by
    simp [buildPattern, hre, hbad]
  have hfn : ∀ pos : Pos, buf.findNext engine searchText pos opts = none := by
    intro pos
    simp [LineBuffer.findNext, hbp]
  refine ⟨hfn _, ?_⟩
  obtain ⟨f, rfl⟩ : ∃ f, fuel = f + 1 := ⟨fuel - 1, by omega⟩
  simp [LineBuffer.findAll, LineBuffer.findAllGo, hfn]

/-- Witness for C9: a constant-failure engine (every pattern invalid) on a
concrete buffer. -/
theorem invalid_regex_no_match_witness :
    ((⟨false, false, true⟩ : FindOptions).regex = true ∧
      (fun _ _ => none : RegexEngine) "[".data false = none ∧ (1 : Nat) ≤ 1) ∧
    ((LineBuffer.mkNew "abc".data ['\n']).findNext (fun _ _ => none) "[".data
        ⟨0, 0⟩ ⟨false, false, true⟩ = none ∧
      (LineBuffer.mkNew "abc".data ['\n']).findAll (fun _ _ => none) "[".data
        ⟨false, false, true⟩ 1 = some []) :=
  ⟨⟨rfl, rfl, le_refl 1⟩,
    invalid_regex_no_match (fun _ _ => none) (LineBuffer.mkNew "abc".data ['\n'])
      "[".data ⟨0, 0⟩ ⟨false, false, true⟩ 1 rfl rfl (le_refl 1)⟩

lemma getD_eq_getElem (L : List Str) (n : Nat) (h : n < L.length) :
    L.getD n [] = L[n] := by
  simp [List.getD, List.getElem?_eq_getElem h]

lemma o2pGo_spec (sepLen : Nat) (hsep : 1 ≤ sepLen) :
    ∀ (L : List Str) (k c idx : Nat), k < L.length →
      c ≤ (L.getD k []).length →
      LineBuffer.o2pGo sepLen L idx (((L.take k).map (fun l => l.length + sepLen)).sum + c) =
        ⟨idx + k, c⟩ := by
  intro L
  induction L with
  | nil => intro k c idx hk; simp at hk
  | cons l L' ih =>
    intro k c idx hk hc
    match k with
    | 0 =>
      simp only [List.take_zero, List.map_nil, List.sum_nil, Nat.zero_add, Nat.add_zero]
      match L' with
      | [] =>
        rw [List.getD_cons_zero] at hc
        by_cases hlt : c < l.length
        · simp [LineBuffer.o2pGo, hlt]
        · have : c = l.length := by omega
          simp [LineBuffer.o2pGo, hlt, this]
      | l' :: ls =>
        rw [List.getD_cons_zero] at hc
        have hlt : c < l.length + sepLen := by omega
        simp [LineBuffer.o2pGo, hlt]
    | k' + 1 =>
      match L' with
      | [] => simp at hk
      | l' :: ls =>
        have hk' : k' < (l' :: ls).length := by simpa using hk
        have hc' : c ≤ ((l' :: ls).getD k' []).length := by
          rw [List.getD_cons_succ] at hc
          exact hc
        have hsum : (((l :: l' :: ls).take (k' + 1)).map
            (fun s => s.length + sepLen)).sum + c =
            (l.length + sepLen) +
              ((((l' :: ls).take k').map (fun s => s.length + sepLen)).sum + c) := by
          simp [List.take_cons]
          omega
        rw [hsum]
        have hge : ¬((l.length + sepLen) +
            ((((l' :: ls).take k').map (fun s => s.length + sepLen)).sum + c) <
              l.length + sepLen) := by omega
        simp only [LineBuffer.o2pGo, hge, if_false]
        have hidx : (l.length + sepLen) +
            ((((l' :: ls).take k').map (fun s => s.length + sepLen)).sum + c) -
              (l.length + sepLen) =
            (((l' :: ls).take k').map (fun s => s.length + sepLen)).sum + c := by omega
        rw [hidx, ih k' c (idx + 1) hk' hc']
        have : idx + 1 + k' = idx + (k' + 1) := by omega
        rw [this]

lemma range_map_getLineLength (buf : LineBuffer) (k : Nat) (hk : k < buf.lines.length) :
    ((List.range k).map buf.getLineLength).sum =
      ((buf.lines.take k).map (fun l => l.length + buf.lineEndings.length)).sum := by
  induction k with
  | zero => simp
  | succ n ih =>
    have hn : n < buf.lines.length := by omega
    have hne : n ≠ buf.lines.length - 1 := by omega
    rw [List.range_succ, List.map_append, List.sum_append, ih hn]
    have htake : buf.lines.take (n + 1) = buf.lines.take n ++ [buf.lines.getD n []] := by
      rw [List.take_succ, List.getElem?_eq_getElem hn]
      simp [List.getD, List.getElem?_eq_getElem hn]
    rw [htake, List.map_append, List.sum_append]
    have hgl : buf.getLineLength n =
        (buf.lines.getD n []).length + buf.lineEndings.length := by
      unfold LineBuffer.getLineLength LineBuffer.lineAt
      rw [if_neg hne]
    simp [hgl]

/-- C4.  Offset round-trip: converting any position to an offset (counting
line-ending separators after every line but the last) and back yields
exactly `validatePosition` of that position; in particular every in-bounds
position survives the round trip unchanged. -/
theorem offset_roundtrip (buf : LineBuffer) (h1 : buf.lines ≠ [])
    (h2 : buf.lineEndings ≠ []) (p : Pos) :
    buf.offsetToPosition (buf.positionToOffset p) = buf.validatePosition p := by
  have hline := validatePosition_line_lt buf h1 p
  have hcol := validatePosition_column_le buf p
  have hsep : 1 ≤ buf.lineEndings.length := List.length_pos.mpr h2
  have hpo : buf.positionToOffset p =
      ((buf.lines.take (buf.validatePosition p).line).map
        (fun l => l.length + buf.lineEndings.length)).sum +
        (buf.validatePosition p).column := by
    show ((List.range (buf.validatePosition p).line).map buf.getLineLength).sum +
        (buf.validatePosition p).column = _
    rw [range_map_getLineLength buf _ hline]
  rw [hpo]
  show LineBuffer.o2pGo buf.lineEndings.length buf.lines 0 _ = _
  rw [o2pGo_spec buf.lineEndings.length hsep buf.lines _ _ 0 hline hcol]
  simp

/-- Witness for C4 on a concrete two-line buffer and an in-bounds position. -/
theorem offset_roundtrip_witness :
    ((LineBuffer.mkNew "ab\ncd".data ['\n']).lines ≠ [] ∧
      (LineBuffer.mkNew "ab\ncd".data ['\n']).lineEndings ≠ []) ∧
    (LineBuffer.mkNew "ab\ncd".data ['\n']).offsetToPosition
        ((LineBuffer.mkNew "ab\ncd".data ['\n']).positionToOffset ⟨1, 1⟩) =
      (LineBuffer.mkNew "ab\ncd".data ['\n']).validatePosition ⟨1, 1⟩ :=
  ⟨⟨by decide, by decide⟩,
    offset_roundtrip (LineBuffer.mkNew "ab\ncd".data ['\n']) (by decide) (by decide) ⟨1, 1⟩⟩

lemma wordRunsFrom_props (l : List Char) : ∀ i : Nat,
    (∀ se ∈ wordRunsFrom l i, i ≤ se.1 ∧ se.1 < se.2 ∧ se.2 ≤ i + l.length) ∧
    (wordRunsFrom l i).Pairwise (fun a b => a.2 < b.1) := by
  induction l with
  | nil =>
    intro i
    exact ⟨by intro se hse; simp [wordRunsFrom] at hse, by simp [wordRunsFrom]⟩
  | cons c rest ih =>
    intro i
    obtain ⟨ihb, ihp⟩ := ih (i + 1)
    cases hw : isWordChar c with
    | false =>
      have hrw : wordRunsFrom (c :: rest) i = wordRunsFrom rest (i + 1) := by
        simp [wordRunsFrom, hw]
      rw [hrw]
      refine ⟨?_, ihp⟩
      intro se hse
      have := ihb se hse
      simp only [List.length_cons]
      omega
    | true =>
      cases hrs : wordRunsFrom rest (i + 1) with
      | nil =>
        have hrw : wordRunsFrom (c :: rest) i = [(i, i + 1)] := by
          simp [wordRunsFrom, hw, hrs]
        rw [hrw]
        constructor
        · intro se hse
          simp only [List.mem_singleton] at hse
          subst hse
          simp only [List.length_cons]
          omega
        · simp
      | cons hd tl =>
        obtain ⟨s, e⟩ := hd
        rw [hrs] at ihb ihp
        rw [List.pairwise_cons] at ihp
        obtain ⟨ihp1, ihp2⟩ := ihp
        have hse := ihb (s, e) (List.mem_cons_self _ _)
        by_cases heq : s = i + 1
        · have hrw : wordRunsFrom (c :: rest) i = (i, e) :: tl := by
            simp [wordRunsFrom, hw, hrs, heq]
          rw [hrw]
          constructor
          · intro se2 hse2
            rcases List.mem_cons.mp hse2 with h | h
            · subst h
              simp only [List.length_cons]
              omega
            · have := ihb se2 (List.mem_cons_of_mem _ h)
              simp only [List.length_cons]
              omega
          · rw [List.pairwise_cons]
            exact ⟨fun b hb => ihp1 b hb, ihp2⟩
        · have hrw : wordRunsFrom (c :: rest) i = (i, i + 1) :: (s, e) :: tl := by
            simp [wordRunsFrom, hw, hrs, heq]
          rw [hrw]
          constructor
          · intro se2 hse2
            rcases List.mem_cons.mp hse2 with h | h
            · subst h
              simp only [List.length_cons]
              omega
            · have := ihb se2 h
              simp only [List.length_cons]
              omega
          · rw [List.pairwise_cons]
            constructor
            · intro b hb
              rcases List.mem_cons.mp hb with h | h
              · subst h
                simp only []
                omega
              · have hb2 := ihp1 b h
                simp only []
                omega
            · rw [List.pairwise_cons]
              exact ⟨ihp1, ihp2⟩

lemma find?_eq_some_of_unique {α : Type} (p : α → Bool) (l : List α)
    (huniq : ∀ a ∈ l, ∀ b ∈ l, p a = true → p b = true → a = b)
    (x : α) (hx : x ∈ l) (hpx : p x = true) : l.find? p = some x := by
  induction l with
  | nil => simp at hx
  | cons y ys ih =>
    by_cases hpy : p y = true
    · have hxy : x = y :=
        huniq x hx y (List.mem_cons_self _ _) hpx hpy
      rw [List.find?_cons_of_pos ys hpy, hxy]
    · rw [List.find?_cons_of_neg ys (by simpa using hpy)]
      rcases List.mem_cons.mp hx with h | h
      · subst h; exact absurd hpx hpy
      · exact ih (fun a ha b hb => huniq a (List.mem_cons_of_mem _ ha)
          b (List.mem_cons_of_mem _ hb)) h

lemma contains_unique (runs : List (Nat × Nat)) (col : Nat)
    (hpair : runs.Pairwise (fun a b => a.2 < b.1)) :
    ∀ a ∈ runs, ∀ b ∈ runs,
      (decide (a.1 ≤ col) && decide (col ≤ a.2)) = true →
      (decide (b.1 ≤ col) && decide (col ≤ b.2)) = true → a = b := by
  have hpair2 : runs.Pairwise (fun a b => a.2 < b.1 ∨ b.2 < a.1) :=
    hpair.imp (fun h => Or.inl h)
  have hsymm : Symmetric (fun a b : Nat × Nat => a.2 < b.1 ∨ b.2 < a.1) := by
    intro a b h
    rcases h with h | h
    · exact Or.inr h
    · exact Or.inl h
  intro a ha b hb hpa hpb
  by_contra hne
  have := hpair2.forall hsymm ha hb hne
  simp only [Bool.and_eq_true, decide_eq_true_eq] at hpa hpb
  rcases this with h | h <;> omega

lemma wordRange_core (line : Str) (vl vc : Nat) :
    (∀ r : NRange,
      (if line = [] ∨ vc ≥ line.length then none
       else
        match (wordRuns line).find?
            (fun se => decide (se.1 ≤ vc) && decide (vc ≤ se.2)) with
        | some (s, e) => some (⟨⟨vl, s⟩, ⟨vl, e⟩⟩ : NRange)
        | none => none) = some r ↔
        (vc < line.length ∧ ∃ s e, r = ⟨⟨vl, s⟩, ⟨vl, e⟩⟩ ∧
          (s, e) ∈ wordRuns line ∧ s ≤ vc ∧ vc ≤ e)) ∧
    ((if line = [] ∨ vc ≥ line.length then none
      else
        match (wordRuns line).find?
            (fun se => decide (se.1 ≤ vc) && decide (vc ≤ se.2)) with
        | some (s, e) => some (⟨⟨vl, s⟩, ⟨vl, e⟩⟩ : NRange)
        | none => none) = none ↔
      (line.length ≤ vc ∨
        ∀ se ∈ wordRuns line, ¬(se.1 ≤ vc ∧ vc ≤ se.2))) := by
  have hpair := (wordRunsFrom_props line 0).2
  by_cases hcond : line = [] ∨ vc ≥ line.length
  · rw [if_pos hcond]
    have hlen : line.length ≤ vc := by
      rcases hcond with h | h
      · simp [h]
      · exact h
    constructor
    · intro r
      constructor
      · intro h; exact absurd h (by simp)
      · rintro ⟨hcol, _⟩; omega
    · constructor
      · intro _; exact Or.inl hlen
      · intro _; rfl
  · push_neg at hcond
    obtain ⟨hne, hcol⟩ := hcond
    rw [if_neg (by push_neg; exact ⟨hne, hcol⟩)]
    cases hfind : (wordRuns line).find?
        (fun se => decide (se.1 ≤ vc) && decide (vc ≤ se.2)) with
    | some se0 =>
      obtain ⟨s, e⟩ := se0
      have hmem : (s, e) ∈ wordRuns line := List.mem_of_find?_eq_some hfind
      have hpred := List.find?_some hfind
      simp only [Bool.and_eq_true, decide_eq_true_eq] at hpred
      change (∀ r : NRange,
          some (⟨⟨vl, s⟩, ⟨vl, e⟩⟩ : NRange) = some r ↔
            (vc < line.length ∧ ∃ s0 e0, r = ⟨⟨vl, s0⟩, ⟨vl, e0⟩⟩ ∧
              (s0, e0) ∈ wordRuns line ∧ s0 ≤ vc ∧ vc ≤ e0)) ∧
        ((some (⟨⟨vl, s⟩, ⟨vl, e⟩⟩ : NRange) = none) ↔
          (line.length ≤ vc ∨
            ∀ se ∈ wordRuns line, ¬(se.1 ≤ vc ∧ vc ≤ se.2)))
      constructor
      · intro r
        constructor
        · intro h
          simp only [Option.some_inj] at h
          exact ⟨hcol, s, e, h.symm, hmem, hpred.1, hpred.2⟩
        · rintro ⟨_, s', e', hr, hmem', hb1, hb2⟩
          have huniq := contains_unique (wordRuns line) vc hpair
          have hfind' : (wordRuns line).find?
              (fun se => decide (se.1 ≤ vc) && decide (vc ≤ se.2)) = some (s', e') :=
            find?_eq_some_of_unique _ _ huniq (s', e') hmem' (by simp [hb1, hb2])
          rw [hfind] at hfind'
          simp only [Option.some_inj, Prod.mk.injEq] at hfind'
          rw [hr, hfind'.1, hfind'.2]
      · constructor
        · intro h; exact absurd h (by simp)
        · intro h
          rcases h with h | h
          · omega
          · exact absurd ⟨hpred.1, hpred.2⟩ (h (s, e) hmem)
    | none =>
      change (∀ r : NRange,
          (none : Option NRange) = some r ↔
            (vc < line.length ∧ ∃ s0 e0, r = ⟨⟨vl, s0⟩, ⟨vl, e0⟩⟩ ∧
              (s0, e0) ∈ wordRuns line ∧ s0 ≤ vc ∧ vc ≤ e0)) ∧
        (((none : Option NRange) = none) ↔
          (line.length ≤ vc ∨
            ∀ se ∈ wordRuns line, ¬(se.1 ≤ vc ∧ vc ≤ se.2)))
      have hnone := List.find?_eq_none.mp hfind
      constructor
      · intro r
        constructor
        · intro h; exact absurd h (by simp)
        · rintro ⟨_, s', e', _, hmem', hb1, hb2⟩
          have hnp := hnone (s', e') hmem'
          simp only [Bool.and_eq_true, decide_eq_true_eq] at hnp
          exact absurd (And.intro hb1 hb2) hnp
      · constructor
        · intro _
          refine Or.inr ?_
          intro se hse
          have hnp := hnone se hse
          simp only [Bool.and_eq_true, decide_eq_true_eq] at hnp
          exact hnp
        · intro _; rfl

/-- C8.  Word-range containment: `getWordRangeAtPosition` returns the match
of the word pattern on the validated position's line that contains the
column inclusively on both ends (a match whose end equals the column
qualifies), and returns none exactly when the column is at or past the end
of the line content or no match contains it.  Since the matches of `/\w+/g`
are pairwise disjoint, at most one contains the column, so that match is
also the first such match scanned by the loop. -/
theorem wordRange_first_containing_match (buf : LineBuffer) (p : Pos) :
    (∀ r : NRange,
      buf.getWordRangeAtPosition p = some r ↔
        ((buf.validatePosition p).column <
            (buf.lineAt (buf.validatePosition p).line).length ∧
          ∃ s e, r = ⟨⟨(buf.validatePosition p).line, s⟩,
              ⟨(buf.validatePosition p).line, e⟩⟩ ∧
            (s, e) ∈ wordRuns (buf.lineAt (buf.validatePosition p).line) ∧
            s ≤ (buf.validatePosition p).column ∧
            (buf.validatePosition p).column ≤ e)) ∧
    (buf.getWordRangeAtPosition p = none ↔
      ((buf.lineAt (buf.validatePosition p).line).length ≤
          (buf.validatePosition p).column ∨
        ∀ se ∈ wordRuns (buf.lineAt (buf.validatePosition p).line),
          ¬(se.1 ≤ (buf.validatePosition p).column ∧
            (buf.validatePosition p).column ≤ se.2))) :=
  wordRange_core (buf.lineAt (buf.validatePosition p).line)
    (buf.validatePosition p).line (buf.validatePosition p).column

lemma jsSubstring_zero (l : Str) (b : Nat) : jsSubstring l 0 b = l.take b := by
  simp [jsSubstring]

lemma jsSubstring_of_le (l : Str) (a b : Nat) (h : a ≤ b) :
    jsSubstring l a b = (l.take b).drop a := by
  simp [jsSubstring, Nat.max_eq_right h, Nat.min_eq_left h]

lemma substringFrom_eq_drop (l : Str) (a : Nat) : substringFrom l a = l.drop a := rfl

lemma getD_set_self (L : List Str) (i : Nat) (x : Str) (h : i < L.length) :
    (L.set i x).getD i [] = x := by
  simp [List.getD, List.getElem?_set_self, h]

lemma set_getD_self (L : List Str) (i : Nat) (h : i < L.length) :
    L.set i (L.getD i []) = L := by
  rw [getD_eq_getElem L i h]
  apply List.ext_getElem
  · simp
  · intro n h1 h2
    rw [List.getElem_set]
    split
    · next heq => subst heq; rfl
    · rfl

lemma take_concat_getD_drop (L : List Str) (i : Nat) (h : i < L.length) :
    L.take i ++ L.getD i [] :: L.drop (i + 1) = L := by
  conv_rhs => rw [← set_getD_self L i h]
  rw [List.set_eq_take_append_cons_drop, if_pos h]

lemma validatePosition_of_inBounds (buf : LineBuffer) (vl vc : Nat)
    (h1 : vl < buf.lines.length) (h2 : vc ≤ (buf.lineAt vl).length) :
    buf.validatePosition ⟨(vl : Int), (vc : Int)⟩ = ⟨vl, vc⟩ := by
  have hl : (min ((vl : Int)) ((buf.lines.length : Int) - 1)).toNat = vl := by omega
  show (⟨(min ((vl : Int)) ((buf.lines.length : Int) - 1)).toNat,
      (min ((vc : Int))
        (((buf.lineAt ((min ((vl : Int)) ((buf.lines.length : Int) - 1)).toNat)).length :
          Int))).toNat⟩ : NPos) = ⟨vl, vc⟩
  rw [hl]
  have hc : (min ((vc : Int)) (((buf.lineAt vl).length : Int))).toNat = vc := by omega
  rw [hc]

lemma validateRange_of_inBounds (buf : LineBuffer) (sl sc el ec : Nat)
    (h1 : sl < buf.lines.length) (h2 : sc ≤ (buf.lineAt sl).length)
    (h3 : el < buf.lines.length) (h4 : ec ≤ (buf.lineAt el).length)
    (h5 : sl < el ∨ (sl = el ∧ sc ≤ ec)) :
    buf.validateRange ⟨⟨(sl : Int), (sc : Int)⟩, ⟨(el : Int), (ec : Int)⟩⟩ =
      ⟨⟨sl, sc⟩, ⟨el, ec⟩⟩ := by
  show (if (buf.validatePosition ⟨(sl : Int), (sc : Int)⟩).line >
        (buf.validatePosition ⟨(el : Int), (ec : Int)⟩).line ∨
        ((buf.validatePosition ⟨(sl : Int), (sc : Int)⟩).line =
          (buf.validatePosition ⟨(el : Int), (ec : Int)⟩).line ∧
          (buf.validatePosition ⟨(sl : Int), (sc : Int)⟩).column >
            (buf.validatePosition ⟨(el : Int), (ec : Int)⟩).column)
      then (⟨buf.validatePosition ⟨(el : Int), (ec : Int)⟩,
        buf.validatePosition ⟨(sl : Int), (sc : Int)⟩⟩ : NRange)
      else ⟨buf.validatePosition ⟨(sl : Int), (sc : Int)⟩,
        buf.validatePosition ⟨(el : Int), (ec : Int)⟩⟩) = ⟨⟨sl, sc⟩, ⟨el, ec⟩⟩
  rw [validatePosition_of_inBounds buf sl sc h1 h2,
    validatePosition_of_inBounds buf el ec h3 h4]
  rw [if_neg ?hcnd]
  case hcnd =>
    simp only [not_or, not_and, not_lt]
    constructor
    · show el ≥ sl
      omega
    · intro heq
      show ec ≥ sc
      omega

lemma take_append_len (A B : List Str) (k : Nat) :
    (A ++ B).take (A.length + k) = A ++ B.take k := List.take_append k

lemma drop_append_len (A B : List Str) (k : Nat) :
    (A ++ B).drop (A.length + k) = B.drop k := List.drop_append k

lemma take_succ_set (L : List Str) (i : Nat) (x : Str) (h : i < L.length) :
    (L.set i x).take (i + 1) = L.take i ++ [x] := by
  rw [List.set_eq_take_append_cons_drop, if_pos h]
  have hlen : (L.take i).length = i := by rw [List.length_take]; omega
  calc (L.take i ++ x :: L.drop (i + 1)).take (i + 1)
      = (L.take i ++ x :: L.drop (i + 1)).take ((L.take i).length + 1) := by rw [hlen]
    _ = L.take i ++ (x :: L.drop (i + 1)).take 1 := take_append_len _ _ 1
    _ = L.take i ++ [x] := by simp

lemma drop_succ_set (L : List Str) (i : Nat) (x : Str) (h : i < L.length) :
    (L.set i x).drop (i + 1) = L.drop (i + 1) := by
  rw [List.set_eq_take_append_cons_drop, if_pos h]
  have hlen : (L.take i).length = i := by rw [List.length_take]; omega
  calc (L.take i ++ x :: L.drop (i + 1)).drop (i + 1)
      = (L.take i ++ x :: L.drop (i + 1)).drop ((L.take i).length + 1) := by rw [hlen]
    _ = (x :: L.drop (i + 1)).drop 1 := drop_append_len _ _ 1
    _ = L.drop (i + 1) := by simp

lemma insertText_single (buf : LineBuffer) (vl vc : Nat) (t t0 : Str)
    (h1 : vl < buf.lines.length) (h2 : vc ≤ (buf.lineAt vl).length)
    (hsplit : splitLines t = [t0]) :
    buf.insertText ⟨(vl : Int), (vc : Int)⟩ t =
      ({ buf with
          lines := buf.lines.set vl
            ((buf.lineAt vl).take vc ++ t ++ (buf.lineAt vl).drop vc),
          version := buf.version + 1 },
       ⟨⟨vl, vc⟩, ⟨vl, vc + t.length⟩⟩) := by
  unfold LineBuffer.insertText
  rw [validatePosition_of_inBounds buf vl vc h1 h2, hsplit]
  simp only [List.length_cons, List.length_nil, Nat.zero_add, if_pos,
    jsSubstring_zero, substringFrom_eq_drop]

lemma take_append_chain (A B : List Str) (n k : Nat) (hn : A.length = n) :
    (A ++ B).take (n + k) = A ++ B.take k := by
  subst hn; exact List.take_append k

lemma drop_append_chain (A B : List Str) (n k : Nat) (hn : A.length = n) :
    (A ++ B).drop (n + k) = B.drop k := by
  subst hn; exact List.drop_append k

lemma insertText_multi (buf : LineBuffer) (vl vc : Nat) (t : Str)
    (t0 tn : Str) (mid : List Str)
    (h1 : vl < buf.lines.length) (h2 : vc ≤ (buf.lineAt vl).length)
    (hsplit : splitLines t = t0 :: mid ++ [tn]) :
    buf.insertText ⟨(vl : Int), (vc : Int)⟩ t =
      ({ buf with
          lines := buf.lines.take vl ++ [(buf.lineAt vl).take vc ++ t0] ++ mid ++
            [tn ++ (buf.lineAt vl).drop vc] ++ buf.lines.drop (vl + 1),
          version := buf.version + 1 },
       ⟨⟨vl, vc⟩, ⟨vl + (mid.length + 1), tn.length⟩⟩) := by
  have hlen : (t0 :: mid ++ [tn]).length = mid.length + 2 := by simp
  have hne : ¬((t0 :: mid ++ [tn]).length = 1) := by rw [hlen]; omega
  have hhead : (t0 :: mid ++ [tn]).headD [] = t0 := rfl
  have hlast : (t0 :: mid ++ [tn]).getLastD [] = tn := by
    have hx : t0 :: mid ++ [tn] = (t0 :: mid) ++ [tn] := by simp
    rw [hx, List.getLastD_concat]
  have hmid : (((t0 :: mid ++ [tn]).take ((t0 :: mid ++ [tn]).length - 1)).drop 1) = mid := by
    rw [hlen]
    have h2x : mid.length + 2 - 1 = mid.length + 1 := by omega
    rw [h2x]
    have h3x : (t0 :: mid ++ [tn]).take (mid.length + 1) = t0 :: mid := by
      have h4x : (t0 :: mid ++ [tn]).take (mid.length + 1) =
          t0 :: (mid ++ [tn]).take mid.length := rfl
      rw [h4x, List.take_left' rfl]
    rw [h3x]
    simp
  unfold LineBuffer.insertText
  rw [validatePosition_of_inBounds buf vl vc h1 h2, hsplit]
  rw [if_neg hne, hhead, hlast, hmid]
  unfold LineBuffer.spliceInsert
  dsimp only
  rw [take_succ_set buf.lines vl _ h1, drop_succ_set buf.lines vl _ h1]
  have hidx : vl + (t0 :: mid ++ [tn]).length - 1 = vl + (mid.length + 1) := by
    rw [hlen]; omega
  rw [hidx]
  have hA2 : (List.take vl buf.lines ++ [jsSubstring (buf.lineAt vl) 0 vc ++ t0] ++
      mid).length = vl + (mid.length + 1) := by
    simp only [List.length_append, List.length_cons, List.length_nil, List.length_take]
    omega
  rw [List.take_left' hA2, List.drop_left' hA2, if_neg hne]
  simp [jsSubstring_zero, substringFrom_eq_drop, List.append_assoc]

lemma deleteText_same_line (buf : LineBuffer) (sl sc ec : Nat)
    (h1 : sl < buf.lines.length) (hle : sc ≤ ec) (h2 : ec ≤ (buf.lineAt sl).length) :
    buf.deleteText ⟨⟨(sl : Int), (sc : Int)⟩, ⟨(sl : Int), (ec : Int)⟩⟩ =
      ({ buf with
          lines := buf.lines.set sl ((buf.lineAt sl).take sc ++ (buf.lineAt sl).drop ec),
          version := buf.version + 1 },
       ((buf.lineAt sl).take ec).drop sc) := by
  have hv := validateRange_of_inBounds buf sl sc sl ec h1 (le_trans hle h2) h1 h2
    (Or.inr ⟨rfl, hle⟩)
  have hgtr : buf.getTextRange (⟨⟨sl, sc⟩, ⟨sl, ec⟩⟩ : NRange).toRange =
      ((buf.lineAt sl).take ec).drop sc := by
    unfold LineBuffer.getTextRange
    rw [show (⟨⟨sl, sc⟩, ⟨sl, ec⟩⟩ : NRange).toRange =
      (⟨⟨(sl : Int), (sc : Int)⟩, ⟨(sl : Int), (ec : Int)⟩⟩ : Range) from rfl, hv]
    dsimp only
    rw [if_pos rfl]
    exact jsSubstring_of_le _ _ _ hle
  unfold LineBuffer.deleteText
  rw [hv]
  dsimp only
  rw [hgtr, if_pos rfl]
  simp [jsSubstring_zero, substringFrom_eq_drop]

lemma deleteText_multi_line (buf : LineBuffer) (sl sc el ec : Nat)
    (h1 : sl < buf.lines.length) (h3 : el < buf.lines.length)
    (h2 : sc ≤ (buf.lineAt sl).length) (h4 : ec ≤ (buf.lineAt el).length)
    (hlt : sl < el) :
    buf.deleteText ⟨⟨(sl : Int), (sc : Int)⟩, ⟨(el : Int), (ec : Int)⟩⟩ =
      ({ buf with
          lines := buf.lines.take sl ++
            [(buf.lineAt sl).take sc ++ (buf.lineAt el).drop ec] ++
            buf.lines.drop (el + 1),
          version := buf.version + 1 },
       joinWith buf.lineEndings ((buf.lineAt sl).drop sc ::
         ((buf.lines.drop (sl + 1)).take (el - (sl + 1)) ++ [(buf.lineAt el).take ec]))) := by
  have hv := validateRange_of_inBounds buf sl sc el ec h1 h2 h3 h4 (Or.inl hlt)
  have hnel : ¬((sl : Nat) = el) := by omega
  have hgtr : buf.getTextRange (⟨⟨sl, sc⟩, ⟨el, ec⟩⟩ : NRange).toRange =
      joinWith buf.lineEndings ((buf.lineAt sl).drop sc ::
        ((buf.lines.drop (sl + 1)).take (el - (sl + 1)) ++ [(buf.lineAt el).take ec])) := by
    unfold LineBuffer.getTextRange
    rw [show (⟨⟨sl, sc⟩, ⟨el, ec⟩⟩ : NRange).toRange =
      (⟨⟨(sl : Int), (sc : Int)⟩, ⟨(el : Int), (ec : Int)⟩⟩ : Range) from rfl, hv]
    dsimp only
    rw [if_neg hnel]
    rw [jsSubstring_zero, substringFrom_eq_drop]
  unfold LineBuffer.deleteText
  rw [hv]
  dsimp only
  rw [hgtr, if_neg hnel]
  unfold LineBuffer.spliceRemove
  rw [take_succ_set buf.lines sl _ h1]
  have hix : sl + 1 + (el - sl) = el + 1 := by omega
  rw [hix, List.drop_set_of_lt _ _ (by omega : sl < el + 1)]
  rw [jsSubstring_zero, substringFrom_eq_drop]

lemma splitLines_ne_nil (t : Str) : splitLines t ≠ [] := by
  rw [splitLines.eq_def]
  split
  · simp
  · simp
  · split <;> simp
  · simp
  · split <;> simp

lemma splitLines_eolFree (s : Str) (h : EolFreeStr s) : splitLines s = [s] := by
  induction s with
  | nil => rfl
  | cons c rest ih =>
    have hc : ¬(c = '\r' ∨ c = '\n') := h c (List.mem_cons_self _ _)
    have hrest : EolFreeStr rest := fun x hx => h x (List.mem_cons_of_mem _ hx)
    rw [splitLines.eq_def]
    split
    · rename_i heq
      exact absurd heq (by simp)
    · rename_i heq
      rw [List.cons.injEq] at heq
      exact absurd (Or.inl heq.1) hc
    · rename_i heq
      rw [List.cons.injEq] at heq
      exact absurd (Or.inl heq.1) hc
    · rename_i heq
      rw [List.cons.injEq] at heq
      exact absurd (Or.inr heq.1) hc
    · rename_i c2 rest2 heq
      rw [List.cons.injEq] at heq
      obtain ⟨hc2, hrest2⟩ := heq
      subst hc2
      subst hrest2
      rw [ih hrest]

lemma splitLines_append_lf (s rest : Str) (h : EolFreeStr s) :
    splitLines (s ++ '\n' :: rest) = s :: splitLines rest := by
  induction s with
  | nil => rfl
  | cons c s' ih =>
    have hc : ¬(c = '\r' ∨ c = '\n') := h c (List.mem_cons_self _ _)
    have hs' : EolFreeStr s' := fun x hx => h x (List.mem_cons_of_mem _ hx)
    show splitLines (c :: (s' ++ '\n' :: rest)) = (c :: s') :: splitLines rest
    rw [splitLines.eq_def]
    split
    · rename_i heq
      exact absurd heq (by simp)
    · rename_i heq
      rw [List.cons.injEq] at heq
      exact absurd (Or.inl heq.1) hc
    · rename_i heq
      rw [List.cons.injEq] at heq
      exact absurd (Or.inl heq.1) hc
    · rename_i heq
      rw [List.cons.injEq] at heq
      exact absurd (Or.inr heq.1) hc
    · rename_i c2 rest2 heq
      rw [List.cons.injEq] at heq
      obtain ⟨hc2, hrest2⟩ := heq
      subst hc2
      rw [← hrest2, ih hs']

lemma splitLines_append_crlf (s rest : Str) (h : EolFreeStr s) :
    splitLines (s ++ '\r' :: '\n' :: rest) = s :: splitLines rest := by
  induction s with
  | nil => rfl
  | cons c s' ih =>
    have hc : ¬(c = '\r' ∨ c = '\n') := h c (List.mem_cons_self _ _)
    have hs' : EolFreeStr s' := fun x hx => h x (List.mem_cons_of_mem _ hx)
    show splitLines (c :: (s' ++ '\r' :: '\n' :: rest)) = (c :: s') :: splitLines rest
    rw [splitLines.eq_def]
    split
    · rename_i heq
      exact absurd heq (by simp)
    · rename_i heq
      rw [List.cons.injEq] at heq
      exact absurd (Or.inl heq.1) hc
    · rename_i heq
      rw [List.cons.injEq] at heq
      exact absurd (Or.inl heq.1) hc
    · rename_i heq
      rw [List.cons.injEq] at heq
      exact absurd (Or.inr heq.1) hc
    · rename_i c2 rest2 heq
      rw [List.cons.injEq] at heq
      obtain ⟨hc2, hrest2⟩ := heq
      subst hc2
      rw [← hrest2, ih hs']

lemma splitLines_append_cr (s rest : Str) (h : EolFreeStr s)
    (hhd : rest.head? ≠ some '\n') :
    splitLines (s ++ '\r' :: rest) = s :: splitLines rest := by
  induction s with
  | nil =>
    show splitLines ('\r' :: rest) = [] :: splitLines rest
    rw [splitLines.eq_def]
    split
    · rename_i heq
      exact absurd heq (by simp)
    · rename_i heq
      rw [List.cons.injEq] at heq
      exact absurd (by rw [heq.2]; rfl) hhd
    · rename_i heq
      rw [List.cons.injEq] at heq
      rw [heq.2]
      split
      · rename_i heq2
        exact absurd heq2 (splitLines_ne_nil _)
      · rfl
    · rename_i heq
      rw [List.cons.injEq] at heq
      exact absurd heq.1 (by decide)
    · rename_i c2 rest2 hne1 hne2 hne3 heq
      rw [List.cons.injEq] at heq
      exact (hne2 heq.1.symm).elim
  | cons c s' ih =>
    have hc : ¬(c = '\r' ∨ c = '\n') := h c (List.mem_cons_self _ _)
    have hs' : EolFreeStr s' := fun x hx => h x (List.mem_cons_of_mem _ hx)
    show splitLines (c :: (s' ++ '\r' :: rest)) = (c :: s') :: splitLines rest
    rw [splitLines.eq_def]
    split
    · rename_i heq
      exact absurd heq (by simp)
    · rename_i heq
      rw [List.cons.injEq] at heq
      exact absurd (Or.inl heq.1) hc
    · rename_i heq
      rw [List.cons.injEq] at heq
      exact absurd (Or.inl heq.1) hc
    · rename_i heq
      rw [List.cons.injEq] at heq
      exact absurd (Or.inr heq.1) hc
    · rename_i c2 rest2 heq
      rw [List.cons.injEq] at heq
      obtain ⟨hc2, hrest2⟩ := heq
      subst hc2
      rw [← hrest2, ih hs']

lemma intercalate_cons (sep : Str) (s : Str) (rest : List Str) :
    List.intercalate sep (s :: rest) =
      s ++ (if rest = [] then [] else sep ++ List.intercalate sep rest) := by
  cases rest with
  | nil => simp [List.intercalate]
  | cons t r2 => simp [List.intercalate, List.intersperse]

lemma head?_intercalate_not_lf (segs : List Str)
    (hall : ∀ s ∈ segs, EolFreeStr s) :
    (List.intercalate ['\r'] segs).head? ≠ some '\n' := by
  cases segs with
  | nil => simp [List.intercalate]
  | cons s rest =>
    rw [intercalate_cons]
    cases s with
    | cons c s' =>
      have hc : ¬(c = '\r' ∨ c = '\n') :=
        hall _ (List.mem_cons_self _ _) c (List.mem_cons_self _ _)
      simp only [List.cons_append, List.head?_cons]
      intro hf
      simp only [Option.some_inj] at hf
      exact hc (Or.inr hf)
    | nil =>
      simp only [List.nil_append]
      split
      · simp
      · simp

lemma splitLines_intercalate (sep : Str)
    (hsep : sep = ['\r', '\n'] ∨ sep = ['\r'] ∨ sep = ['\n']) :
    ∀ segs : List Str, segs ≠ [] → (∀ s ∈ segs, EolFreeStr s) →
      splitLines (List.intercalate sep segs) = segs := by
  intro segs
  induction segs with
  | nil => intro hne _; exact absurd rfl hne
  | cons s rest ih =>
    intro _ hall
    cases rest with
    | nil =>
      rw [show List.intercalate sep [s] = s from by simp [List.intercalate]]
      exact splitLines_eolFree s (hall s (List.mem_cons_self _ _))
    | cons s2 rest2 =>
      have hx : List.intercalate sep (s :: s2 :: rest2) =
          s ++ (sep ++ List.intercalate sep (s2 :: rest2)) := by
        simp [List.intercalate, List.intersperse]
      rw [hx]
      have hs : EolFreeStr s := hall s (List.mem_cons_self _ _)
      have hall2 : ∀ x ∈ s2 :: rest2, EolFreeStr x :=
        fun x hx2 => hall x (List.mem_cons_of_mem _ hx2)
      have ih2 := ih (by simp) hall2
      rcases hsep with h | h | h
      · subst h
        rw [show (['\r', '\n'] : Str) ++ List.intercalate ['\r', '\n'] (s2 :: rest2) =
            '\r' :: '\n' :: List.intercalate ['\r', '\n'] (s2 :: rest2) from rfl]
        rw [splitLines_append_crlf s _ hs, ih2]
      · subst h
        rw [show (['\r'] : Str) ++ List.intercalate ['\r'] (s2 :: rest2) =
            '\r' :: List.intercalate ['\r'] (s2 :: rest2) from rfl]
        rw [splitLines_append_cr s _ hs (head?_intercalate_not_lf _ hall2), ih2]
      · subst h
        rw [show (['\n'] : Str) ++ List.intercalate ['\n'] (s2 :: rest2) =
            '\n' :: List.intercalate ['\n'] (s2 :: rest2) from rfl]
        rw [splitLines_append_lf s _ hs, ih2]

lemma getD_big_at_first (A : List Str) (b : Str) (mid : List Str) (c : Str)
    (D : List Str) (n : Nat) (hA : A.length = n) :
    ((((A ++ [b]) ++ mid) ++ [c]) ++ D).getD n [] = b := by
  rw [List.getD_append (((A ++ [b]) ++ mid) ++ [c]) D [] n (by
    simp only [List.length_append, List.length_cons, List.length_nil, hA]; omega)]
  rw [List.getD_append ((A ++ [b]) ++ mid) [c] [] n (by
    simp only [List.length_append, List.length_cons, List.length_nil, hA]; omega)]
  rw [List.getD_append (A ++ [b]) mid [] n (by
    simp only [List.length_append, List.length_cons, List.length_nil, hA]; omega)]
  rw [List.getD_append_right A [b] [] n (le_of_eq hA)]
  rw [hA]
  simp

lemma getD_big_at_last (A : List Str) (b : Str) (mid : List Str) (c : Str)
    (D : List Str) (n : Nat) (hA : A.length = n) :
    ((((A ++ [b]) ++ mid) ++ [c]) ++ D).getD (n + mid.length + 1) [] = c := by
  rw [List.getD_append (((A ++ [b]) ++ mid) ++ [c]) D [] _ (by
    simp only [List.length_append, List.length_cons, List.length_nil, hA]; omega)]
  rw [List.getD_append_right ((A ++ [b]) ++ mid) [c] [] _ (by
    simp only [List.length_append, List.length_cons, List.length_nil, hA]; omega)]
  have hz : n + mid.length + 1 - ((A ++ [b]) ++ mid).length = 0 := by
    simp only [List.length_append, List.length_cons, List.length_nil, hA]
    omega
  rw [hz]
  rfl

lemma take_big (A : List Str) (b : Str) (mid : List Str) (c : Str)
    (D : List Str) (n : Nat) (hA : A.length = n) :
    ((((A ++ [b]) ++ mid) ++ [c]) ++ D).take n = A := by
  rw [List.take_append_of_le_length (by
    simp only [List.length_append, List.length_cons, List.length_nil, hA]; omega)]
  rw [List.take_append_of_le_length (by
    simp only [List.length_append, List.length_cons, List.length_nil, hA]; omega)]
  rw [List.take_append_of_le_length (show n ≤ (A ++ [b]).length by
    simp only [List.length_append, List.length_cons, List.length_nil, hA]; omega)]
  rw [List.take_append_of_le_length (le_of_eq hA.symm)]
  rw [← hA]
  exact List.take_length A

lemma drop_big (A : List Str) (b : Str) (mid : List Str) (c : Str)
    (D : List Str) (n : Nat) (hA : A.length = n) :
    ((((A ++ [b]) ++ mid) ++ [c]) ++ D).drop (n + mid.length + 1 + 1) = D := by
  apply List.drop_left'
  simp only [List.length_append, List.length_cons, List.length_nil, hA]
  omega

lemma insert_delete_buf (buf : LineBuffer) (h : buf.lines ≠ []) (p : Pos) (t : Str) :
    (((buf.insertText p t).1).deleteText ((buf.insertText p t).2).toRange).1 =
      { buf with version := buf.version + 2 } := by
  rcases hv : buf.validatePosition p with ⟨vl, vc⟩
  have hvl : vl < buf.lines.length := by
    have hx := validatePosition_line_lt buf h p
    rw [hv] at hx; exact hx
  have hvc : vc ≤ (buf.lineAt vl).length := by
    have hx := validatePosition_column_le buf p
    rw [hv] at hx; exact hx
  have hcongr : buf.insertText p t = buf.insertText ⟨(vl : Int), (vc : Int)⟩ t := by
    unfold LineBuffer.insertText
    rw [hv, validatePosition_of_inBounds buf vl vc hvl hvc]
  rw [hcongr]
  rcases hsp : splitLines t with _ | ⟨t0, rest⟩
  · exact absurd hsp (splitLines_ne_nil t)
  rcases rest with _ | ⟨r1, rest2⟩
  · rw [insertText_single buf vl vc t t0 hvl hvc hsp]
    dsimp only
    rw [show (⟨⟨vl, vc⟩, ⟨vl, vc + t.length⟩⟩ : NRange).toRange =
      (⟨⟨(vl : Int), (vc : Int)⟩, ⟨(vl : Int), ((vc + t.length : Nat) : Int)⟩⟩ : Range)
      from rfl]
    have hlineAt : ({ buf with
        lines := buf.lines.set vl
          ((buf.lineAt vl).take vc ++ t ++ (buf.lineAt vl).drop vc),
        version := buf.version + 1 } : LineBuffer).lineAt vl =
        (buf.lineAt vl).take vc ++ t ++ (buf.lineAt vl).drop vc := by
      show (buf.lines.set vl _).getD vl [] = _
      rw [getD_set_self _ _ _ hvl]
    rw [deleteText_same_line _ vl vc (vc + t.length)
      (by simp only [List.length_set]; exact hvl)
      (Nat.le_add_right vc t.length)
      (by
        rw [hlineAt]
        simp only [List.length_append, List.length_take, List.length_drop]
        omega)]
    dsimp only
    rw [hlineAt]
    have htk : ((buf.lineAt vl).take vc ++ t ++ (buf.lineAt vl).drop vc).take vc =
        (buf.lineAt vl).take vc := by
      rw [List.append_assoc]
      exact List.take_left' (by rw [List.length_take]; omega)
    have hdp : ((buf.lineAt vl).take vc ++ t ++ (buf.lineAt vl).drop vc).drop
        (vc + t.length) = (buf.lineAt vl).drop vc := by
      apply List.drop_left'
      simp only [List.length_append, List.length_take]
      omega
    rw [htk, hdp]
    have hlines : (buf.lines.set vl
        ((buf.lineAt vl).take vc ++ t ++ (buf.lineAt vl).drop vc)).set vl
        ((buf.lineAt vl).take vc ++ (buf.lineAt vl).drop vc) = buf.lines := by
      rw [List.set_set, List.take_append_drop]
      exact set_getD_self buf.lines vl hvl
    rw [hlines]
  · have hr : r1 :: rest2 ≠ [] := by simp
    have hsp2 : splitLines t =
        t0 :: ((r1 :: rest2).dropLast ++ [(r1 :: rest2).getLast hr]) := by
      rw [List.dropLast_append_getLast hr]; exact hsp
    rw [insertText_multi buf vl vc t t0 ((r1 :: rest2).getLast hr)
      ((r1 :: rest2).dropLast) hvl hvc hsp2]
    dsimp only
    rw [show (⟨⟨vl, vc⟩, ⟨vl + ((r1 :: rest2).dropLast.length + 1),
        ((r1 :: rest2).getLast hr).length⟩⟩ : NRange).toRange =
      (⟨⟨(vl : Int), (vc : Int)⟩,
        ⟨((vl + ((r1 :: rest2).dropLast.length + 1) : Nat) : Int),
         ((((r1 :: rest2).getLast hr).length : Nat) : Int)⟩⟩ : Range) from rfl]
    have hAlen : (buf.lines.take vl).length = vl := by
      rw [List.length_take]; omega
    have hlineAt1 : ({ buf with
        lines := buf.lines.take vl ++ [(buf.lineAt vl).take vc ++ t0] ++
          (r1 :: rest2).dropLast ++
          [(r1 :: rest2).getLast hr ++ (buf.lineAt vl).drop vc] ++
          buf.lines.drop (vl + 1),
        version := buf.version + 1 } : LineBuffer).lineAt vl =
        (buf.lineAt vl).take vc ++ t0 :=
      getD_big_at_first _ _ _ _ _ vl hAlen
    have hlineAt2 : ({ buf with
        lines := buf.lines.take vl ++ [(buf.lineAt vl).take vc ++ t0] ++
          (r1 :: rest2).dropLast ++
          [(r1 :: rest2).getLast hr ++ (buf.lineAt vl).drop vc] ++
          buf.lines.drop (vl + 1),
        version := buf.version + 1 } : LineBuffer).lineAt
          (vl + ((r1 :: rest2).dropLast.length + 1)) =
        (r1 :: rest2).getLast hr ++ (buf.lineAt vl).drop vc := by
      have hx := getD_big_at_last (buf.lines.take vl) ((buf.lineAt vl).take vc ++ t0)
        ((r1 :: rest2).dropLast) ((r1 :: rest2).getLast hr ++ (buf.lineAt vl).drop vc)
        (buf.lines.drop (vl + 1)) vl hAlen
      show _ = _
      rw [show vl + ((r1 :: rest2).dropLast.length + 1) =
        vl + (r1 :: rest2).dropLast.length + 1 from by omega]
      exact hx
    rw [deleteText_multi_line _ vl vc (vl + ((r1 :: rest2).dropLast.length + 1))
      ((r1 :: rest2).getLast hr).length
      (by
        simp only [List.length_append, List.length_cons, List.length_nil, hAlen]
        omega)
      (by
        simp only [List.length_append, List.length_cons, List.length_nil, hAlen]
        omega)
      (by
        rw [hlineAt1]
        simp only [List.length_append, List.length_take]
        omega)
      (by rw [hlineAt2]; simp)
      (by omega)]
    dsimp only
    rw [hlineAt1, hlineAt2]
    have htk1 : ((buf.lineAt vl).take vc ++ t0).take vc = (buf.lineAt vl).take vc :=
      List.take_left' (by rw [List.length_take]; omega)
    have hdp1 : ((r1 :: rest2).getLast hr ++ (buf.lineAt vl).drop vc).drop
        ((r1 :: rest2).getLast hr).length = (buf.lineAt vl).drop vc :=
      List.drop_left' rfl
    rw [htk1, hdp1]
    have htkA : (buf.lines.take vl ++ [(buf.lineAt vl).take vc ++ t0] ++
        (r1 :: rest2).dropLast ++
        [(r1 :: rest2).getLast hr ++ (buf.lineAt vl).drop vc] ++
        buf.lines.drop (vl + 1)).take vl = buf.lines.take vl :=
      take_big _ _ _ _ _ vl hAlen
    have hdpA : (buf.lines.take vl ++ [(buf.lineAt vl).take vc ++ t0] ++
        (r1 :: rest2).dropLast ++
        [(r1 :: rest2).getLast hr ++ (buf.lineAt vl).drop vc] ++
        buf.lines.drop (vl + 1)).drop (vl + ((r1 :: rest2).dropLast.length + 1) + 1) =
        buf.lines.drop (vl + 1) := by
      have hx := drop_big (buf.lines.take vl) ((buf.lineAt vl).take vc ++ t0)
        ((r1 :: rest2).dropLast) ((r1 :: rest2).getLast hr ++ (buf.lineAt vl).drop vc)
        (buf.lines.drop (vl + 1)) vl hAlen
      rw [show vl + ((r1 :: rest2).dropLast.length + 1) + 1 =
        vl + (r1 :: rest2).dropLast.length + 1 + 1 from by omega]
      exact hx
    rw [htkA, hdpA, List.take_append_drop]
    have hfin : buf.lines.take vl ++ [buf.lineAt vl] ++ buf.lines.drop (vl + 1) =
        buf.lines := by
      rw [List.append_assoc, List.singleton_append]
      exact take_concat_getD_drop buf.lines vl hvl
    rw [hfin]

/-- C3.  Insert/delete round-trip: inserting any text at any position and
then deleting exactly the range `insertText` returned restores the buffer's
text bit-identically and leaves the version at the original plus two. -/
theorem insert_delete_roundtrip (buf : LineBuffer) (h : buf.lines ≠ [])
    (p : Pos) (t : Str) :
    (((buf.insertText p t).1).deleteText ((buf.insertText p t).2).toRange).1.getText =
      buf.getText ∧
    (((buf.insertText p t).1).deleteText ((buf.insertText p t).2).toRange).1.version =
      buf.version + 2 := by
  rw [insert_delete_buf buf h p t]
  exact ⟨rfl, rfl⟩

/-- Witness for C3 on a concrete buffer with a multi-line insertion. -/
theorem insert_delete_roundtrip_witness :
    ((LineBuffer.mkNew "abc\nwxyz".data ['\n']).lines ≠ []) ∧
    ((((LineBuffer.mkNew "abc\nwxyz".data ['\n']).insertText ⟨0, 2⟩ "X\nY".data).1).deleteText
        (((LineBuffer.mkNew "abc\nwxyz".data ['\n']).insertText ⟨0, 2⟩
          "X\nY".data).2).toRange).1.getText =
      (LineBuffer.mkNew "abc\nwxyz".data ['\n']).getText :=
  ⟨by decide,
    (insert_delete_roundtrip (LineBuffer.mkNew "abc\nwxyz".data ['\n'])
      (by decide) ⟨0, 2⟩ "X\nY".data).1⟩

lemma getTextRange_same_line (buf : LineBuffer) (sl sc ec : Nat)
    (h1 : sl < buf.lines.length) (hle : sc ≤ ec) (h2 : ec ≤ (buf.lineAt sl).length) :
    buf.getTextRange ⟨⟨(sl : Int), (sc : Int)⟩, ⟨(sl : Int), (ec : Int)⟩⟩ =
      ((buf.lineAt sl).take ec).drop sc := by
  have hv := validateRange_of_inBounds buf sl sc sl ec h1 (le_trans hle h2) h1 h2
    (Or.inr ⟨rfl, hle⟩)
  unfold LineBuffer.getTextRange
  rw [hv]
  dsimp only
  rw [if_pos rfl]
  exact jsSubstring_of_le _ _ _ hle

lemma getTextRange_multi_line (buf : LineBuffer) (sl sc el ec : Nat)
    (h1 : sl < buf.lines.length) (h3 : el < buf.lines.length)
    (h2 : sc ≤ (buf.lineAt sl).length) (h4 : ec ≤ (buf.lineAt el).length)
    (hlt : sl < el) :
    buf.getTextRange ⟨⟨(sl : Int), (sc : Int)⟩, ⟨(el : Int), (ec : Int)⟩⟩ =
      joinWith buf.lineEndings ((buf.lineAt sl).drop sc ::
        ((buf.lines.drop (sl + 1)).take (el - (sl + 1)) ++ [(buf.lineAt el).take ec])) := by
  have hv := validateRange_of_inBounds buf sl sc el ec h1 h2 h3 h4 (Or.inl hlt)
  have hnel : ¬((sl : Nat) = el) := by omega
  unfold LineBuffer.getTextRange
  rw [hv]
  dsimp only
  rw [if_neg hnel]
  rw [jsSubstring_zero, substringFrom_eq_drop]

lemma delete_insert_back_same (buf : LineBuffer)
    (hEol : ∀ l ∈ buf.lines, EolFreeStr l) (sl sc ec : Nat)
    (h1 : sl < buf.lines.length) (hle : sc ≤ ec) (h2 : ec ≤ (buf.lineAt sl).length)
    (w : Nat) :
    (({ buf with
        lines := buf.lines.set sl ((buf.lineAt sl).take sc ++ (buf.lineAt sl).drop ec),
        version := w } : LineBuffer).insertText ⟨(sl : Int), (sc : Int)⟩
      (((buf.lineAt sl).take ec).drop sc)).1 =
    { buf with version := w + 1 } := by
  have hEolLine : EolFreeStr (buf.lineAt sl) := by
    apply hEol
    show buf.lines.getD sl [] ∈ buf.lines
    rw [getD_eq_getElem buf.lines sl h1]
    exact List.getElem_mem h1
  have hEolDel : EolFreeStr (((buf.lineAt sl).take ec).drop sc) := by
    intro c hc
    exact hEolLine c (List.mem_of_mem_take (List.mem_of_mem_drop hc))
  have hsp : splitLines (((buf.lineAt sl).take ec).drop sc) =
      [((buf.lineAt sl).take ec).drop sc] := splitLines_eolFree _ hEolDel
  have hlineAt : ({ buf with
      lines := buf.lines.set sl ((buf.lineAt sl).take sc ++ (buf.lineAt sl).drop ec),
      version := w } : LineBuffer).lineAt sl =
      (buf.lineAt sl).take sc ++ (buf.lineAt sl).drop ec := by
    show (buf.lines.set sl _).getD sl [] = _
    rw [getD_set_self _ _ _ h1]
  rw [insertText_single _ sl sc _ _
    (by simp only [List.length_set]; exact h1)
    (by rw [hlineAt]; simp only [List.length_append, List.length_take]; omega)
    hsp]
  dsimp only
  rw [hlineAt]
  have htk : ((buf.lineAt sl).take sc ++ (buf.lineAt sl).drop ec).take sc =
      (buf.lineAt sl).take sc :=
    List.take_append_of_le_length (by rw [List.length_take]; omega) |>.trans
      (by
        rw [List.take_take]
        congr 1
        omega)
  have hdp : ((buf.lineAt sl).take sc ++ (buf.lineAt sl).drop ec).drop sc =
      (buf.lineAt sl).drop ec :=
    List.drop_left' (by rw [List.length_take]; omega)
  rw [htk, hdp]
  have hmidline : (buf.lineAt sl).take sc ++ ((buf.lineAt sl).take ec).drop sc ++
      (buf.lineAt sl).drop ec = buf.lineAt sl := by
    have hx : (buf.lineAt sl).take sc = ((buf.lineAt sl).take ec).take sc := by
      rw [List.take_take]
      congr 1
      omega
    rw [hx, List.take_append_drop, List.take_append_drop]
  rw [hmidline, List.set_set]
  rw [show buf.lineAt sl = buf.lines.getD sl [] from rfl, set_getD_self buf.lines sl h1]

lemma getD_mid (A : List Str) (m : Str) (D : List Str) (n : Nat) (hA : A.length = n) :
    ((A ++ [m]) ++ D).getD n [] = m := by
  rw [List.getD_append (A ++ [m]) D [] n (by
    simp only [List.length_append, List.length_cons, List.length_nil, hA]; omega)]
  rw [List.getD_append_right A [m] [] n (le_of_eq hA)]
  rw [hA]
  simp

lemma take_mid (A : List Str) (m : Str) (D : List Str) (n : Nat) (hA : A.length = n) :
    ((A ++ [m]) ++ D).take n = A := by
  rw [List.take_append_of_le_length (by
    simp only [List.length_append, List.length_cons, List.length_nil, hA]; omega)]
  rw [List.take_append_of_le_length (le_of_eq hA.symm)]
  rw [← hA]
  exact List.take_length A

lemma lines_reassemble (L : List Str) (sl el : Nat)
    (h1 : sl < L.length) (h3 : el < L.length) (hlt : sl < el) :
    L.take sl ++ [L.getD sl []] ++ ((L.drop (sl + 1)).take (el - (sl + 1))) ++
      [L.getD el []] ++ L.drop (el + 1) = L := by
  have hdropel : L.drop (sl + 1) = (L.drop (sl + 1)).take (el - (sl + 1)) ++
      (L.getD el [] :: L.drop (el + 1)) := by
    conv_lhs => rw [← List.take_append_drop (el - (sl + 1)) (L.drop (sl + 1))]
    congr 1
    rw [List.drop_drop]
    rw [show sl + 1 + (el - (sl + 1)) = el from by omega]
    rw [List.drop_eq_getElem_cons h3, getD_eq_getElem L el h3]
  calc L.take sl ++ [L.getD sl []] ++ ((L.drop (sl + 1)).take (el - (sl + 1))) ++
      [L.getD el []] ++ L.drop (el + 1)
      = L.take sl ++ L.getD sl [] :: ((L.drop (sl + 1)).take (el - (sl + 1)) ++
          (L.getD el [] :: L.drop (el + 1))) := by
        simp [List.append_assoc]
    _ = L.take sl ++ L.getD sl [] :: L.drop (sl + 1) := by rw [← hdropel]
    _ = L := take_concat_getD_drop L sl h1

lemma delete_insert_back_multi (buf : LineBuffer)
    (hEol : ∀ l ∈ buf.lines, EolFreeStr l)
    (hsep : buf.lineEndings = ['\r', '\n'] ∨ buf.lineEndings = ['\r'] ∨
      buf.lineEndings = ['\n'])
    (sl sc el ec : Nat)
    (h1 : sl < buf.lines.length) (h3 : el < buf.lines.length)
    (h2 : sc ≤ (buf.lineAt sl).length) (h4 : ec ≤ (buf.lineAt el).length)
    (hlt : sl < el) (w : Nat) :
    (({ buf with
        lines := buf.lines.take sl ++
          [(buf.lineAt sl).take sc ++ (buf.lineAt el).drop ec] ++
          buf.lines.drop (el + 1),
        version := w } : LineBuffer).insertText ⟨(sl : Int), (sc : Int)⟩
      (joinWith buf.lineEndings ((buf.lineAt sl).drop sc ::
        ((buf.lines.drop (sl + 1)).take (el - (sl + 1)) ++
          [(buf.lineAt el).take ec])))).1 =
    { buf with version := w + 1 } := by
  have hmemAt : ∀ i : Nat, i < buf.lines.length → buf.lineAt i ∈ buf.lines := by
    intro i hi
    show buf.lines.getD i [] ∈ buf.lines
    rw [getD_eq_getElem buf.lines i hi]
    exact List.getElem_mem hi
  have hEolSegs : ∀ s ∈ (buf.lineAt sl).drop sc ::
      ((buf.lines.drop (sl + 1)).take (el - (sl + 1)) ++ [(buf.lineAt el).take ec]),
      EolFreeStr s := by
    intro s hs
    rcases List.mem_cons.mp hs with h | h
    · subst h
      intro c hc
      exact hEol _ (hmemAt sl h1) c (List.mem_of_mem_drop hc)
    · rcases List.mem_append.mp h with h | h
      · have hsin : s ∈ buf.lines :=
          List.mem_of_mem_drop (List.mem_of_mem_take h)
        exact hEol s hsin
      · rw [List.mem_singleton] at h
        subst h
        intro c hc
        exact hEol _ (hmemAt el h3) c (List.mem_of_mem_take hc)
  have hsp : splitLines (joinWith buf.lineEndings ((buf.lineAt sl).drop sc ::
      ((buf.lines.drop (sl + 1)).take (el - (sl + 1)) ++ [(buf.lineAt el).take ec]))) =
      (buf.lineAt sl).drop sc ::
        ((buf.lines.drop (sl + 1)).take (el - (sl + 1)) ++ [(buf.lineAt el).take ec]) :=
    splitLines_intercalate buf.lineEndings hsep _ (by simp) hEolSegs
  have hAlen : (buf.lines.take sl).length = sl := by
    rw [List.length_take]; omega
  have hlineAtD : ({ buf with
      lines := buf.lines.take sl ++
        [(buf.lineAt sl).take sc ++ (buf.lineAt el).drop ec] ++
        buf.lines.drop (el + 1),
      version := w } : LineBuffer).lineAt sl =
      (buf.lineAt sl).take sc ++ (buf.lineAt el).drop ec :=
    getD_mid _ _ _ sl hAlen
  rw [insertText_multi _ sl sc _ ((buf.lineAt sl).drop sc) ((buf.lineAt el).take ec)
    ((buf.lines.drop (sl + 1)).take (el - (sl + 1)))
    (by
      simp only [List.length_append, List.length_cons, List.length_nil, hAlen]
      omega)
    (by
      rw [hlineAtD]
      simp only [List.length_append, List.length_take]
      omega)
    hsp]
  dsimp only
  rw [hlineAtD]
  have htk : ((buf.lineAt sl).take sc ++ (buf.lineAt el).drop ec).take sc =
      (buf.lineAt sl).take sc := by
    rw [List.take_append_of_le_length (by rw [List.length_take]; omega)]
    rw [List.take_take]
    congr 1
    omega
  have hdp : ((buf.lineAt sl).take sc ++ (buf.lineAt el).drop ec).drop sc =
      (buf.lineAt el).drop ec :=
    List.drop_left' (by rw [List.length_take]; omega)
  rw [htk, hdp]
  have htkD : (buf.lines.take sl ++
      [(buf.lineAt sl).take sc ++ (buf.lineAt el).drop ec] ++
      buf.lines.drop (el + 1)).take sl = buf.lines.take sl :=
    take_mid _ _ _ sl hAlen
  have hdpD : (buf.lines.take sl ++
      [(buf.lineAt sl).take sc ++ (buf.lineAt el).drop ec] ++
      buf.lines.drop (el + 1)).drop (sl + 1) = buf.lines.drop (el + 1) :=
    List.drop_left' (by
      simp [hAlen])
  rw [htkD, hdpD, List.take_append_drop, List.take_append_drop]
  have hfin : buf.lines.take sl ++ [buf.lineAt sl] ++
      ((buf.lines.drop (sl + 1)).take (el - (sl + 1))) ++ [buf.lineAt el] ++
      buf.lines.drop (el + 1) = buf.lines :=
    lines_reassemble buf.lines sl el h1 h3 hlt
  rw [hfin]

lemma insertText_range_start (buf : LineBuffer) (p : Pos) (t : Str) :
    ((buf.insertText p t).2).start = buf.validatePosition p := by
  unfold LineBuffer.insertText
  dsimp only
  split <;> rfl

lemma exec_undo_buf (buf : LineBuffer) (hWF : WF buf) (sl sc el ec : Nat)
    (h1 : sl < buf.lines.length) (h2 : sc ≤ (buf.lineAt sl).length)
    (h3 : el < buf.lines.length) (h4 : ec ≤ (buf.lineAt el).length)
    (h5 : sl < el ∨ (sl = el ∧ sc ≤ ec)) (tNew : Str) :
    ((buf.replaceText ⟨⟨(sl : Int), (sc : Int)⟩, ⟨(el : Int), (ec : Int)⟩⟩ tNew).1.replaceText
      ((buf.replaceText ⟨⟨(sl : Int), (sc : Int)⟩, ⟨(el : Int), (ec : Int)⟩⟩ tNew).2).toRange
      (buf.getTextRange ⟨⟨(sl : Int), (sc : Int)⟩, ⟨(el : Int), (ec : Int)⟩⟩)).1 =
    { buf with version := buf.version + 4 } := by
  obtain ⟨hne, hEol, hsep⟩ := hWF
  simp only [LineBuffer.replaceText]
  rcases h5 with hlt | ⟨heq, hle⟩
  · -- multi-line range
    rw [deleteText_multi_line buf sl sc el ec h1 h3 h2 h4 hlt]
    rw [getTextRange_multi_line buf sl sc el ec h1 h3 h2 h4 hlt]
    rw [insert_delete_buf _ (by
      intro hf
      have := congrArg List.length hf
      simp at this) _ tNew]
    simp only [NRange.toRange]
    rw [insertText_range_start]
    have hAlen : (buf.lines.take sl).length = sl := by
      rw [List.length_take]; omega
    rw [validatePosition_of_inBounds _ sl sc
      (by
        simp only [List.length_append, List.length_cons, List.length_nil, hAlen]
        omega)
      (by
        rw [show ({ buf with
            lines := buf.lines.take sl ++
              [(buf.lineAt sl).take sc ++ (buf.lineAt el).drop ec] ++
              buf.lines.drop (el + 1),
            version := buf.version + 1 } : LineBuffer).lineAt sl =
          (buf.lineAt sl).take sc ++ (buf.lineAt el).drop ec from
          getD_mid _ _ _ sl hAlen]
        simp only [List.length_append, List.length_take]
        omega)]
    simp only [NPos.toPos]
    rw [delete_insert_back_multi buf hEol hsep sl sc el ec h1 h3 h2 h4 hlt
      (buf.version + 1 + 2)]
  · -- same-line range
    subst heq
    rw [deleteText_same_line buf sl sc ec h1 hle h4]
    rw [getTextRange_same_line buf sl sc ec h1 hle h4]
    rw [insert_delete_buf _ (by
      intro hf
      have := congrArg List.length hf
      simp at this
      exact hne this) _ tNew]
    simp only [NRange.toRange]
    rw [insertText_range_start]
    rw [validatePosition_of_inBounds _ sl sc
      (by simp only [List.length_set]; exact h1)
      (by
        rw [show ({ buf with
            lines := buf.lines.set sl
              ((buf.lineAt sl).take sc ++ (buf.lineAt sl).drop ec),
            version := buf.version + 1 } : LineBuffer).lineAt sl =
          (buf.lineAt sl).take sc ++ (buf.lineAt sl).drop ec from by
          show (buf.lines.set sl _).getD sl [] = _
          rw [getD_set_self _ _ _ h1]]
        simp only [List.length_append, List.length_take]
        omega)]
    simp only [NPos.toPos]
    rw [delete_insert_back_same buf hEol sl sc ec h1 hle h4 (buf.version + 1 + 2)]

/-
Version congruence: every `LineBuffer` operation reads only `lines` and
`lineEndings`; the `version` counter is write-only.  Changing the stored
version therefore changes nothing but the version of the result.
-/

lemma validatePosition_withVersion (b : LineBuffer) (w : Nat) (p : Pos) :
    ({ b with version := w } : LineBuffer).validatePosition p =
      b.validatePosition p := rfl

lemma validateRange_withVersion (b : LineBuffer) (w : Nat) (r : Range) :
    ({ b with version := w } : LineBuffer).validateRange r =
      b.validateRange r := rfl

lemma lineAt_withVersion (b : LineBuffer) (w : Nat) (i : Nat) :
    ({ b with version := w } : LineBuffer).lineAt i = b.lineAt i := rfl

lemma getTextRange_withVersion (b : LineBuffer) (w : Nat) (r : Range) :
    ({ b with version := w } : LineBuffer).getTextRange r =
      b.getTextRange r := rfl

lemma getText_withVersion (b : LineBuffer) (w : Nat) :
    ({ b with version := w } : LineBuffer).getText = b.getText := rfl

lemma deleteText_withVersion (b : LineBuffer) (w : Nat) (r : Range) :
    ({ b with version := w } : LineBuffer).deleteText r =
      ({ (b.deleteText r).1 with version := w + 1 }, (b.deleteText r).2) := by
  unfold LineBuffer.deleteText
  dsimp only
  rw [validateRange_withVersion, getTextRange_withVersion,
    lineAt_withVersion]
  split <;> rfl

lemma insertText_withVersion (b : LineBuffer) (w : Nat) (p : Pos) (t : Str) :
    ({ b with version := w } : LineBuffer).insertText p t =
      ({ (b.insertText p t).1 with version := w + 1 }, (b.insertText p t).2) := by
  unfold LineBuffer.insertText
  dsimp only
  rw [validatePosition_withVersion, lineAt_withVersion]
  split <;> rfl

lemma replaceText_withVersion (b : LineBuffer) (w : Nat) (r : Range) (t : Str) :
    ({ b with version := w } : LineBuffer).replaceText r t =
      ({ (b.replaceText r t).1 with version := w + 2 },
       (b.replaceText r t).2) := by
  simp only [LineBuffer.replaceText]
  rw [deleteText_withVersion, insertText_withVersion]

/-- Turn an exactly-in-bounds, ordered range into its natural-number
coordinates together with the bounds the characterization lemmas need. -/
lemma rangeExactIn_elim (buf : LineBuffer) (r : Range)
    (h : rangeExactIn buf r = true) :
    ∃ sl sc el ec : Nat,
      r = ⟨⟨(sl : Int), (sc : Int)⟩, ⟨(el : Int), (ec : Int)⟩⟩ ∧
      sl < buf.lines.length ∧ sc ≤ (buf.lineAt sl).length ∧
      el < buf.lines.length ∧ ec ≤ (buf.lineAt el).length ∧
      (sl < el ∨ (sl = el ∧ sc ≤ ec)) := by
  obtain ⟨⟨a, b⟩, ⟨c, d⟩⟩ := r
  simp only [rangeExactIn, posExactIn, posLeB, Bool.and_eq_true,
    Bool.or_eq_true, decide_eq_true_eq] at h
  obtain ⟨⟨⟨⟨⟨ha0, haL⟩, hb0⟩, hbL⟩, ⟨⟨⟨hc0, hcL⟩, hd0⟩, hdL⟩⟩, hord⟩ := h
  refine ⟨a.toNat, b.toNat, c.toNat, d.toNat, ?_, ?_, ?_, ?_, ?_, ?_⟩
  · simp [Int.toNat_of_nonneg ha0, Int.toNat_of_nonneg hb0,
      Int.toNat_of_nonneg hc0, Int.toNat_of_nonneg hd0]
  · omega
  · omega
  · omega
  · omega
  · omega

lemma exec_undo_buf' (buf : LineBuffer) (hWF : WF buf) (r : Range)
    (tNew : Str) (hr : rangeExactIn buf r = true) (w : Nat) :
    (({ (buf.replaceText r tNew).1 with version := w } : LineBuffer).replaceText
      ((buf.replaceText r tNew).2).toRange (buf.getTextRange r)).1 =
    { buf with version := w + 2 } := by
  obtain ⟨sl, sc, el, ec, hrEq, h1, h2, h3, h4, h5⟩ := rangeExactIn_elim buf r hr
  subst hrEq
  rw [replaceText_withVersion]
  rw [exec_undo_buf buf hWF sl sc el ec h1 h2 h3 h4 h5 tNew]

lemma EolFree_nil : EolFreeStr [] := fun x hx => absurd hx (List.not_mem_nil x)

lemma EolFree_append {a b : Str} (ha : EolFreeStr a) (hb : EolFreeStr b) :
    EolFreeStr (a ++ b) := by
  intro x hx
  rcases List.mem_append.mp hx with h | h
  · exact ha x h
  · exact hb x h

lemma EolFree_take (s : Str) (n : Nat) (h : EolFreeStr s) :
    EolFreeStr (s.take n) := fun x hx => h x (List.mem_of_mem_take hx)

lemma EolFree_drop (s : Str) (n : Nat) (h : EolFreeStr s) :
    EolFreeStr (s.drop n) := fun x hx => h x (List.mem_of_mem_drop hx)

/-- Every segment produced by `splitLines` is free of line terminators. -/
lemma splitLines_segs_eolFree (t : Str) : ∀ l ∈ splitLines t, EolFreeStr l := by
  have H : ∀ (n : Nat) (t : Str), t.length ≤ n → ∀ l ∈ splitLines t, EolFreeStr l := by
    intro n
    induction n with
    | zero =>
      intro t ht l hl
      cases t with
      | nil =>
        rw [show splitLines [] = [[]] from rfl] at hl
        simp only [List.mem_singleton] at hl
        subst hl
        exact EolFree_nil
      | cons c rest => simp at ht
    | succ n ih =>
      intro t ht l hl
      cases t with
      | nil =>
        rw [show splitLines [] = [[]] from rfl] at hl
        simp only [List.mem_singleton] at hl
        subst hl
        exact EolFree_nil
      | cons c rest =>
        simp only [List.length_cons, Nat.add_le_add_iff_right] at ht
        by_cases hcr : c = '\r'
        · subst hcr
          cases rest with
          | nil =>
            rw [show splitLines ['\r'] = [[], []] from rfl] at hl
            simp only [List.mem_cons, List.mem_singleton, List.not_mem_nil,
              or_false] at hl
            rcases hl with rfl | rfl <;> exact EolFree_nil
          | cons c2 rest2 =>
            simp only [List.length_cons] at ht
            by_cases hlf : c2 = '\n'
            · subst hlf
              rw [show splitLines ('\r' :: '\n' :: rest2) =
                [] :: splitLines rest2 from rfl] at hl
              rcases List.mem_cons.mp hl with rfl | h
              · exact EolFree_nil
              · exact ih rest2 (by omega) l h
            · rw [splitLines.eq_def] at hl
              split at hl
              · rename_i heq
                exact absurd heq (by simp)
              · rename_i heq
                rw [List.cons.injEq, List.cons.injEq] at heq
                exact absurd heq.2.1 hlf
              · rename_i a href heq
                rw [List.cons.injEq] at heq
                split at hl
                · rename_i heq2
                  rw [← heq.2] at heq2
                  exact absurd heq2 (splitLines_ne_nil (c2 :: rest2))
                · rcases List.mem_cons.mp hl with rfl | h
                  · exact EolFree_nil
                  · rw [← heq.2] at h
                    exact ih (c2 :: rest2) (by simp only [List.length_cons]; omega) l h
              · rename_i heq
                rw [List.cons.injEq] at heq
                exact absurd heq.1 (by decide)
              · rename_i cc rr hrA hrB hrC heq
                rw [List.cons.injEq] at heq
                exact absurd heq.1.symm hrB
        · by_cases hlf : c = '\n'
          · subst hlf
            rw [show splitLines ('\n' :: rest) = [] :: splitLines rest from rfl] at hl
            rcases List.mem_cons.mp hl with rfl | h
            · exact EolFree_nil
            · exact ih rest ht l h
          · rw [splitLines.eq_def] at hl
            split at hl
            · rename_i heq
              exact absurd heq (by simp)
            · rename_i heq
              rw [List.cons.injEq] at heq
              exact absurd heq.1 hcr
            · rename_i heq
              rw [List.cons.injEq] at heq
              exact absurd heq.1 hcr
            · rename_i heq
              rw [List.cons.injEq] at heq
              exact absurd heq.1 hlf
            · rename_i cc rr hrA hrB hrC heq
              rw [List.cons.injEq] at heq
              obtain ⟨hc', hrest'⟩ := heq
              subst hc'
              subst hrest'
              split at hl
              · rename_i heq2
                exact absurd heq2 (splitLines_ne_nil rest)
              · rename_i l0 ls heq2
                rcases List.mem_cons.mp hl with rfl | h
                · intro x hx
                  rcases List.mem_cons.mp hx with rfl | hx2
                  · intro hf
                    rcases hf with hf | hf
                    · exact hcr hf
                    · exact hlf hf
                  · have hl0 : l0 ∈ splitLines rest := by
                      rw [heq2]; exact List.mem_cons_self _ _
                    exact ih rest ht l0 hl0 x hx2
                · have hmem : l ∈ splitLines rest := by
                    rw [heq2]; exact List.mem_cons_of_mem _ h
                  exact ih rest ht l hmem
  exact H t.length t (le_refl _)

/-- If `splitLines` returns a single segment, the input had no terminators
and the segment is the input itself. -/
lemma splitLines_singleton (t t0 : Str) (h : splitLines t = [t0]) : t = t0 := by
  have H : ∀ (n : Nat) (t t0 : Str), t.length ≤ n → splitLines t = [t0] → t = t0 := by
    intro n
    induction n with
    | zero =>
      intro t t0 ht h
      cases t with
      | nil =>
        rw [show splitLines [] = [[]] from rfl] at h
        rw [List.cons.injEq] at h
        exact h.1
      | cons c rest => simp at ht
    | succ n ih =>
      intro t t0 ht h
      cases t with
      | nil =>
        rw [show splitLines [] = [[]] from rfl] at h
        rw [List.cons.injEq] at h
        exact h.1
      | cons c rest =>
        simp only [List.length_cons, Nat.add_le_add_iff_right] at ht
        by_cases hcr : c = '\r'
        · subst hcr
          cases rest with
          | nil =>
            rw [show splitLines ['\r'] = [[], []] from rfl] at h
            simp at h
          | cons c2 rest2 =>
            by_cases hlf : c2 = '\n'
            · subst hlf
              rw [show splitLines ('\r' :: '\n' :: rest2) =
                [] :: splitLines rest2 from rfl] at h
              rw [List.cons.injEq] at h
              exact absurd h.2 (splitLines_ne_nil rest2)
            · rw [splitLines.eq_def] at h
              split at h
              · rename_i heq
                exact absurd heq (by simp)
              · rename_i heq
                rw [List.cons.injEq, List.cons.injEq] at heq
                exact absurd heq.2.1 hlf
              · rename_i a href heq
                rw [List.cons.injEq] at heq
                split at h
                · rename_i heq2
                  rw [← heq.2] at heq2
                  exact absurd heq2 (splitLines_ne_nil (c2 :: rest2))
                · rw [List.cons.injEq] at h
                  rw [← heq.2] at h
                  exact absurd h.2 (splitLines_ne_nil (c2 :: rest2))
              · rename_i heq
                rw [List.cons.injEq] at heq
                exact absurd heq.1 (by decide)
              · rename_i cc rr hrA hrB hrC heq
                rw [List.cons.injEq] at heq
                exact absurd heq.1.symm hrB
        · by_cases hlf : c = '\n'
          · subst hlf
            rw [show splitLines ('\n' :: rest) = [] :: splitLines rest from rfl] at h
            rw [List.cons.injEq] at h
            exact absurd h.2 (splitLines_ne_nil rest)
          · rw [splitLines.eq_def] at h
            split at h
            · rename_i heq
              exact absurd heq (by simp)
            · rename_i heq
              rw [List.cons.injEq] at heq
              exact absurd heq.1 hcr
            · rename_i heq
              rw [List.cons.injEq] at heq
              exact absurd heq.1 hcr
            · rename_i heq
              rw [List.cons.injEq] at heq
              exact absurd heq.1 hlf
            · rename_i cc rr hrA hrB hrC heq
              rw [List.cons.injEq] at heq
              obtain ⟨hc', hrest'⟩ := heq
              subst hc'
              subst hrest'
              split at h
              · rename_i heq2
                exact absurd heq2 (splitLines_ne_nil rest)
              · rename_i l0 ls heq2
                rw [List.cons.injEq] at h
                obtain ⟨ht0, hls⟩ := h
                subst hls
                have hrest : rest = l0 := ih rest l0 ht heq2
                rw [hrest, ht0]
  exact H t.length t t0 (le_refl _) h

lemma lineAt_eolFree (buf : LineBuffer)
    (hEol : ∀ l ∈ buf.lines, EolFreeStr l) (i : Nat) :
    EolFreeStr (buf.lineAt i) := by
  unfold LineBuffer.lineAt
  by_cases h : i < buf.lines.length
  · rw [List.getD_eq_getElem buf.lines [] h]
    exact hEol _ (List.getElem_mem _)
  · rw [List.getD_eq_default buf.lines [] (le_of_not_lt h)]
    exact EolFree_nil

/-- `insertText` at an in-bounds position preserves well-formedness. -/
lemma WF_insertText (buf : LineBuffer) (hWF : WF buf) (vl vc : Nat)
    (h1 : vl < buf.lines.length) (h2 : vc ≤ (buf.lineAt vl).length) (t : Str) :
    WF ((buf.insertText ⟨(vl : Int), (vc : Int)⟩ t).1) := by
  obtain ⟨hne, hEol, hsep⟩ := hWF
  cases hsp : splitLines t with
  | nil => exact absurd hsp (splitLines_ne_nil t)
  | cons t0 ts =>
    rcases List.eq_nil_or_concat ts with rfl | ⟨mid, tn, rfl⟩
    · rw [insertText_single buf vl vc t t0 h1 h2 hsp]
      have ht : EolFreeStr t := by
        rw [splitLines_singleton t t0 hsp]
        exact splitLines_segs_eolFree t t0 (by rw [hsp]; exact List.mem_cons_self _ _)
      refine ⟨?_, ?_, hsep⟩
      · intro hf
        have h0 : buf.lines.length = 0 := by simpa using congrArg List.length hf
        exact hne (List.length_eq_zero.mp h0)
      · intro l hlmem
        rcases List.mem_or_eq_of_mem_set hlmem with hmem | rfl
        · exact hEol l hmem
        · exact EolFree_append
            (EolFree_append (EolFree_take _ _ (lineAt_eolFree buf hEol vl)) ht)
            (EolFree_drop _ _ (lineAt_eolFree buf hEol vl))
    · rw [List.concat_eq_append] at hsp
      rw [insertText_multi buf vl vc t t0 tn mid h1 h2 hsp]
      have hsegs : ∀ x ∈ splitLines t, EolFreeStr x := splitLines_segs_eolFree t
      rw [hsp] at hsegs
      refine ⟨?_, ?_, hsep⟩
      · intro hf
        have := congrArg List.length hf
        simp at this
      · intro l hlmem
        simp only [List.append_assoc, List.mem_append, List.mem_cons,
          List.mem_singleton, List.not_mem_nil, or_false] at hlmem
        rcases hlmem with h | h | h | h | h
        · exact hEol l (List.mem_of_mem_take h)
        · subst h
          exact EolFree_append (EolFree_take _ _ (lineAt_eolFree buf hEol vl))
            (hsegs t0 (List.mem_cons_self _ _))
        · exact hsegs l (by simp [h])
        · subst h
          exact EolFree_append (hsegs tn (by simp))
            (EolFree_drop _ _ (lineAt_eolFree buf hEol vl))
        · exact hEol l (List.mem_of_mem_drop h)

/-- `deleteText` of an exactly-in-bounds ordered range preserves
well-formedness. -/
lemma WF_deleteText_clean (buf : LineBuffer) (hWF : WF buf) (sl sc el ec : Nat)
    (h1 : sl < buf.lines.length) (h2 : sc ≤ (buf.lineAt sl).length)
    (h3 : el < buf.lines.length) (h4 : ec ≤ (buf.lineAt el).length)
    (h5 : sl < el ∨ (sl = el ∧ sc ≤ ec)) :
    WF ((buf.deleteText ⟨⟨(sl : Int), (sc : Int)⟩, ⟨(el : Int), (ec : Int)⟩⟩).1) := by
  obtain ⟨hne, hEol, hsep⟩ := hWF
  rcases h5 with hlt | ⟨heq, hle⟩
  · rw [deleteText_multi_line buf sl sc el ec h1 h3 h2 h4 hlt]
    refine ⟨?_, ?_, hsep⟩
    · intro hf
      have := congrArg List.length hf
      simp at this
    · intro l hlmem
      simp only [List.append_assoc, List.mem_append, List.mem_cons,
        List.mem_singleton, List.not_mem_nil, or_false] at hlmem
      rcases hlmem with h | h | h
      · exact hEol l (List.mem_of_mem_take h)
      · subst h
        exact EolFree_append (EolFree_take _ _ (lineAt_eolFree buf hEol sl))
          (EolFree_drop _ _ (lineAt_eolFree buf hEol el))
      · exact hEol l (List.mem_of_mem_drop h)
  · subst heq
    rw [deleteText_same_line buf sl sc ec h1 hle h4]
    refine ⟨?_, ?_, hsep⟩
    · intro hf
      have h0 : buf.lines.length = 0 := by simpa using congrArg List.length hf
      exact hne (List.length_eq_zero.mp h0)
    · intro l hlmem
      rcases List.mem_or_eq_of_mem_set hlmem with hmem | rfl
      · exact hEol l hmem
      · exact EolFree_append (EolFree_take _ _ (lineAt_eolFree buf hEol sl))
          (EolFree_drop _ _ (lineAt_eolFree buf hEol sl))

/-- `replaceText` with an exactly-in-bounds ordered range preserves
well-formedness. -/
lemma WF_replaceText_clean (buf : LineBuffer) (hWF : WF buf) (r : Range)
    (t : Str) (h : rangeExactIn buf r = true) : WF ((buf.replaceText r t).1) := by
  obtain ⟨sl, sc, el, ec, rfl, h1, h2, h3, h4, h5⟩ := rangeExactIn_elim buf r h
  simp only [LineBuffer.replaceText]
  have hWFd := WF_deleteText_clean buf hWF sl sc el ec h1 h2 h3 h4 h5
  rcases h5 with hlt | ⟨heq, hle⟩
  · have hD : (buf.deleteText
        ⟨⟨(sl : Int), (sc : Int)⟩, ⟨(el : Int), (ec : Int)⟩⟩).1 =
        { buf with
          lines := buf.lines.take sl ++
            [(buf.lineAt sl).take sc ++ (buf.lineAt el).drop ec] ++
            buf.lines.drop (el + 1),
          version := buf.version + 1 } := by
      rw [deleteText_multi_line buf sl sc el ec h1 h3 h2 h4 hlt]
    rw [hD] at hWFd ⊢
    have hAlen : (buf.lines.take sl).length = sl := by
      rw [List.length_take]; omega
    refine WF_insertText _ hWFd sl sc ?_ ?_ t
    · simp only [List.length_append, List.length_cons, List.length_nil, hAlen]
      omega
    · rw [show ({ buf with
          lines := buf.lines.take sl ++
            [(buf.lineAt sl).take sc ++ (buf.lineAt el).drop ec] ++
            buf.lines.drop (el + 1),
          version := buf.version + 1 } : LineBuffer).lineAt sl =
        (buf.lineAt sl).take sc ++ (buf.lineAt el).drop ec from
        getD_mid _ _ _ sl hAlen]
      simp only [List.length_append, List.length_take]
      omega
  · subst heq
    have hD : (buf.deleteText
        ⟨⟨(sl : Int), (sc : Int)⟩, ⟨(sl : Int), (ec : Int)⟩⟩).1 =
        { buf with
          lines := buf.lines.set sl
            ((buf.lineAt sl).take sc ++ (buf.lineAt sl).drop ec),
          version := buf.version + 1 } := by
      rw [deleteText_same_line buf sl sc ec h1 hle h4]
    rw [hD] at hWFd ⊢
    refine WF_insertText _ hWFd sl sc ?_ ?_ t
    · simp only [List.length_set]
      exact h1
    · rw [show ({ buf with
          lines := buf.lines.set sl
            ((buf.lineAt sl).take sc ++ (buf.lineAt sl).drop ec),
          version := buf.version + 1 } : LineBuffer).lineAt sl =
        (buf.lineAt sl).take sc ++ (buf.lineAt sl).drop ec from by
        show (buf.lines.set sl _).getD sl [] = _
        rw [getD_set_self _ _ _ h1]]
      simp only [List.length_append, List.length_take]
      omega

/-- Executing a clean command sequence preserves well-formedness. -/
lemma WF_execBufAll (inputs : List (Range × Str)) :
    ∀ (buf : LineBuffer), WF buf → cleanSeqB buf inputs = true →
      WF (execBufAll buf inputs) := by
  induction inputs with
  | nil => intro buf hWF _; exact hWF
  | cons i rest ih =>
    intro buf hWF hclean
    obtain ⟨r, t⟩ := i
    rw [show cleanSeqB buf ((r, t) :: rest) =
      (rangeExactIn buf r && cleanSeqB (buf.replaceText r t).1 rest) from rfl,
      Bool.and_eq_true] at hclean
    show WF (execBufAll (cmdExecute buf (mkCommand (r, t))).1 rest)
    rw [show (cmdExecute buf (mkCommand (r, t))).1 = (buf.replaceText r t).1 from rfl]
    exact ih _ (WF_replaceText_clean buf hWF r t hclean.1) hclean.2

lemma execBufAll_append (xs ys : List (Range × Str)) :
    ∀ (buf : LineBuffer),
      execBufAll buf (xs ++ ys) = execBufAll (execBufAll buf xs) ys := by
  induction xs with
  | nil => intro buf; rfl
  | cons x rest ih =>
    intro buf
    show execBufAll (cmdExecute buf (mkCommand x)).1 (rest ++ ys) = _
    rw [ih]
    rfl

lemma execRecs_append (xs ys : List (Range × Str)) :
    ∀ (buf : LineBuffer),
      execRecs buf (xs ++ ys) =
        execRecs buf xs ++ execRecs (execBufAll buf xs) ys := by
  induction xs with
  | nil => intro buf; rfl
  | cons x rest ih =>
    intro buf
    show (cmdExecute buf (mkCommand x)).2 ::
        execRecs (cmdExecute buf (mkCommand x)).1 (rest ++ ys) = _
    rw [ih]
    rfl

lemma execBufAll_concat (buf : LineBuffer) (xs : List (Range × Str))
    (i : Range × Str) :
    execBufAll buf (xs ++ [i]) = (cmdExecute (execBufAll buf xs) (mkCommand i)).1 := by
  rw [execBufAll_append]
  rfl

lemma execRecs_concat (buf : LineBuffer) (xs : List (Range × Str))
    (i : Range × Str) :
    execRecs buf (xs ++ [i]) =
      execRecs buf xs ++ [(cmdExecute (execBufAll buf xs) (mkCommand i)).2] := by
  rw [execRecs_append]
  rfl

lemma cleanSeqB_append (xs ys : List (Range × Str)) :
    ∀ (buf : LineBuffer),
      cleanSeqB buf (xs ++ ys) =
        (cleanSeqB buf xs && cleanSeqB (execBufAll buf xs) ys) := by
  induction xs with
  | nil => intro buf; rfl
  | cons x rest ih =>
    intro buf
    obtain ⟨r, t⟩ := x
    show (rangeExactIn buf r && cleanSeqB (buf.replaceText r t).1 (rest ++ ys)) = _
    rw [ih]
    rw [show cleanSeqB buf ((r, t) :: rest) =
      (rangeExactIn buf r && cleanSeqB (buf.replaceText r t).1 rest) from rfl]
    rw [Bool.and_assoc]
    rfl

lemma undoneRecs_cons (buf : LineBuffer) (i : Range × Str)
    (rest : List (Range × Str)) :
    undoneRecs buf (i :: rest) =
      undoneRecs (cmdExecute buf (mkCommand i)).1 rest ++
        [markUndone (cmdExecute buf (mkCommand i)).2] := by
  unfold undoneRecs
  rw [show execRecs buf (i :: rest) =
    (cmdExecute buf (mkCommand i)).2 ::
      execRecs (cmdExecute buf (mkCommand i)).1 rest from rfl]
  rw [List.reverse_cons, List.map_append]
  rfl

lemma undoneRecs_concat (buf : LineBuffer) (xs : List (Range × Str))
    (i : Range × Str) :
    undoneRecs buf (xs ++ [i]) =
      markUndone (cmdExecute (execBufAll buf xs) (mkCommand i)).2 ::
        undoneRecs buf xs := by
  unfold undoneRecs
  rw [execRecs_concat, List.reverse_append]
  rfl

lemma histUndo_concat (b : LineBuffer) (us : List TextEditCommand)
    (c : TextEditCommand) (rs : List TextEditCommand) (M : Nat) :
    (histUndo ⟨b, ⟨us ++ [c], rs, M⟩⟩).1 =
      ⟨(cmdUndo b c).1, ⟨us, rs ++ [(cmdUndo b c).2], M⟩⟩ := by
  unfold histUndo
  dsimp only
  rw [List.getLast?_concat, List.dropLast_concat]

lemma histRedo_concat (b : LineBuffer) (us rs : List TextEditCommand)
    (c : TextEditCommand) (M : Nat) :
    (histRedo ⟨b, ⟨us, rs ++ [c], M⟩⟩).1 =
      ⟨(cmdRedo b c).1, ⟨us ++ [(cmdRedo b c).2], rs, M⟩⟩ := by
  unfold histRedo
  dsimp only
  rw [List.getLast?_concat, List.dropLast_concat]

/-- Undoing a fully executed clean sequence from the newest command down
restores the original line content (the version keeps counting up: two
bumps per undo), empties the undo stack and piles the records, marked
undone, onto the redo stack in reverse execution order. -/
lemma undoN_spec (inputs : List (Range × Str)) :
    ∀ (buf : LineBuffer), WF buf → cleanSeqB buf inputs = true →
    ∀ (w : Nat) (rs : List TextEditCommand) (M : Nat),
      undoN inputs.length
        ⟨{ execBufAll buf inputs with version := w },
         ⟨execRecs buf inputs, rs, M⟩⟩ =
      ⟨{ buf with version := w + 2 * inputs.length },
       ⟨[], rs ++ undoneRecs buf inputs, M⟩⟩ := by
  induction inputs using List.reverseRecOn with
  | nil =>
    intro buf hWF hclean w rs M
    simp [undoN, execBufAll, execRecs, undoneRecs]
  | append_singleton xs i ih =>
    intro buf hWF hclean w rs M
    obtain ⟨r, t⟩ := i
    rw [cleanSeqB_append xs [(r, t)] buf, Bool.and_eq_true] at hclean
    obtain ⟨hxs, hlast⟩ := hclean
    simp only [cleanSeqB, Bool.and_true] at hlast
    have hWFB : WF (execBufAll buf xs) := WF_execBufAll xs buf hWF hxs
    rw [show (xs ++ [(r, t)]).length = xs.length + 1 from by simp]
    rw [execRecs_concat, execBufAll_concat]
    simp only [undoN]
    rw [histUndo_concat]
    rw [show (cmdExecute (execBufAll buf xs) (mkCommand (r, t))).1 =
      ((execBufAll buf xs).replaceText r t).1 from rfl]
    have hcu : cmdUndo
        { ((execBufAll buf xs).replaceText r t).1 with version := w }
        (cmdExecute (execBufAll buf xs) (mkCommand (r, t))).2 =
      ((({ ((execBufAll buf xs).replaceText r t).1 with
            version := w } : LineBuffer).replaceText
          (((execBufAll buf xs).replaceText r t).2).toRange
          ((execBufAll buf xs).getTextRange r)).1,
       markUndone (cmdExecute (execBufAll buf xs) (mkCommand (r, t))).2) := rfl
    rw [hcu]
    dsimp only
    rw [exec_undo_buf' (execBufAll buf xs) hWFB r t hlast w]
    rw [ih buf hWF hxs (w + 2) (rs ++ [markUndone
      (cmdExecute (execBufAll buf xs) (mkCommand (r, t))).2]) M]
    rw [undoneRecs_concat]
    rw [show w + 2 + 2 * xs.length = w + 2 * (xs.length + 1) from by omega]
    rw [List.append_assoc, List.singleton_append]

/-- Redoing the whole redo stack re-executes the commands oldest-first and
reproduces the post-execution line content (again with two version bumps
per redo). -/
lemma redoN_spec (inputs : List (Range × Str)) :
    ∀ (buf : LineBuffer) (w : Nat) (us : List TextEditCommand) (M : Nat),
      (redoN inputs.length
        ⟨{ buf with version := w }, ⟨us, undoneRecs buf inputs, M⟩⟩).buf =
      { execBufAll buf inputs with version := w + 2 * inputs.length } := by
  induction inputs with
  | nil =>
    intro buf w us M
    simp [redoN, execBufAll, undoneRecs, execRecs]
  | cons i rest ih =>
    intro buf w us M
    obtain ⟨r, t⟩ := i
    rw [show ((r, t) :: rest).length = rest.length + 1 from rfl]
    simp only [redoN]
    rw [undoneRecs_cons]
    rw [show (cmdExecute buf (mkCommand (r, t))).1 =
      (buf.replaceText r t).1 from rfl]
    rw [histRedo_concat]
    rw [show (cmdRedo { buf with version := w }
        (markUndone (cmdExecute buf (mkCommand (r, t))).2)).1 =
      (({ buf with version := w } : LineBuffer).replaceText r t).1 from rfl]
    rw [replaceText_withVersion]
    dsimp only
    rw [ih ((buf.replaceText r t).1) (w + 2) _ M]
    rw [show execBufAll buf ((r, t) :: rest) =
      execBufAll ((buf.replaceText r t).1) rest from rfl]
    rw [show w + 2 + 2 * rest.length = w + 2 * (rest.length + 1) from by omega]

/-- C1, counterexample to the literal claim: on the two-character document
"ab", a single `TextEditCommand` whose range is backwards
(start `(0,1)`, end `(0,0)`) with empty replacement text leaves the text
"b" after execution, but after `undo()` followed by `redo()` the text is
"a": the round trip is not exact for arbitrary commands, because
`replaceText` re-clamps the raw `range.start` against the buffer as it
stands after the deletion. -/
theorem undo_redo_counterexample :
    ¬ ((redoN 1 (undoN 1 (execAll
          ⟨LineBuffer.mkNew ['a', 'b'] ['\n'], ⟨[], [], 10⟩⟩
          [(⟨⟨0, 1⟩, ⟨0, 0⟩⟩, [])]))).buf.getText =
       (execAll ⟨LineBuffer.mkNew ['a', 'b'] ['\n'], ⟨[], [], 10⟩⟩
          [(⟨⟨0, 1⟩, ⟨0, 0⟩⟩, [])]).buf.getText) := by decide

/-- C1 (amended). For every well-formed document and every sequence of
text-edit commands, at most `maxStackSize` many, whose ranges are exactly
in bounds and ordered in the buffer state at their own execution point,
executing them all through `CommandHistory.execute`, then calling `undo()`
once per command and `redo()` once per command, leaves the buffer text
exactly equal to the text right after the original executions. -/
theorem undo_redo_exactness (buf : LineBuffer) (M : Nat)
    (inputs : List (Range × Str)) (hWF : WF buf)
    (hclean : cleanSeqB buf inputs = true) (hlen : inputs.length ≤ M) :
    (redoN inputs.length (undoN inputs.length
        (execAll ⟨buf, ⟨[], [], M⟩⟩ inputs))).buf.getText =
    (execAll ⟨buf, ⟨[], [], M⟩⟩ inputs).buf.getText := by
  rw [execAll_spec inputs buf [] [] M (by simp)]
  dsimp only
  rw [List.nil_append]
  rw [show List.length ([] : List TextEditCommand) + inputs.length - M = 0 from by
    simp only [List.length_nil]
    omega]
  rw [List.drop_zero]
  rw [show (if inputs = [] then ([] : List TextEditCommand) else []) = [] from
    ite_self []]
  have hu := undoN_spec inputs buf hWF hclean (execBufAll buf inputs).version [] M
  rw [show ({ execBufAll buf inputs with
      version := (execBufAll buf inputs).version } : LineBuffer) =
    execBufAll buf inputs from rfl] at hu
  rw [hu]
  rw [List.nil_append]
  rw [redoN_spec inputs buf
    ((execBufAll buf inputs).version + 2 * inputs.length) [] M]
  rfl

/-- Witness for the amended C1 at a concrete clean input: replacing the
"a" of "ab" by "X", executing, undoing once and redoing once ends with
the text "Xb" that execution produced. -/
theorem undo_redo_exactness_witness :
    WF (LineBuffer.mkNew ['a', 'b'] ['\n']) ∧
    cleanSeqB (LineBuffer.mkNew ['a', 'b'] ['\n'])
      [(⟨⟨0, 0⟩, ⟨0, 1⟩⟩, ['X'])] = true ∧
    ([(⟨⟨0, 0⟩, ⟨0, 1⟩⟩, ['X'])] : List (Range × Str)).length ≤ 5 ∧
    (redoN ([(⟨⟨0, 0⟩, ⟨0, 1⟩⟩, ['X'])] : List (Range × Str)).length
        (undoN ([(⟨⟨0, 0⟩, ⟨0, 1⟩⟩, ['X'])] : List (Range × Str)).length
          (execAll ⟨LineBuffer.mkNew ['a', 'b'] ['\n'], ⟨[], [], 5⟩⟩
            [(⟨⟨0, 0⟩, ⟨0, 1⟩⟩, ['X'])]))).buf.getText =
      (execAll ⟨LineBuffer.mkNew ['a', 'b'] ['\n'], ⟨[], [], 5⟩⟩
        [(⟨⟨0, 0⟩, ⟨0, 1⟩⟩, ['X'])]).buf.getText :=
  ⟨by unfold WF EolFreeStr; decide, by decide, by decide,
   undo_redo_exactness (LineBuffer.mkNew ['a', 'b'] ['\n']) 5
     [(⟨⟨0, 0⟩, ⟨0, 1⟩⟩, ['X'])] (by unfold WF EolFreeStr; decide)
     (by decide) (by decide)⟩
